import Mathlib

/-!
Verification of the schema-graph extraction and relation-derivation engine of
`avro_doc_generator.py` (class `AvroDocumentationGenerator`).

The parsed Avro schema is a graph of Python objects that may be cyclic
(named references resolve to the already-constructed schema object), and the
code guards traversal with the object-identity set `self.processed_types`
(`id(type_schema)`) and a numeric depth cutoff.  We therefore embed the type
tree as a *store* of nodes addressed by numeric ids (`Nat`), the shallow
counterpart of Python object identity; a child position holds the id of the
child node.  A field whose Python value is a `list` (a union) is a store node
of its own (`NodeData.union`), since Python lists have an `id` too and the
source dispatches on `isinstance(x, list)` versus `hasattr(x, 'type')`.

Python's unbounded recursion is embedded with an explicit fuel argument that
is structurally decreasing; for `process_type_relations` the fuel is exactly
the remaining allowance of the source's `depth` counter (`fuel = 11 - depth`,
the guard `depth > 10` at line 67 being fuel 0), and for
`_extract_from_type` the fuel `st.length + 1` is proved sufficient (the
identity guard lets a chain of descending calls add a fresh valid id at every
level, so no chain is longer than the store).
-/

set_option maxHeartbeats 1000000

namespace AvroDoc

/-- Default-value slot of an Avro field.  `present v` renders the value `v`;
`broken` models the case where retrieval of the default raises, the `except`
path of `_parse_record_fields` (src lines 315–321): fallible retrieval is
embedded as an explicit error state instead of a Python exception. -/
inductive DefaultState where
  | absent
  | present (v : String)
  | broken
deriving DecidableEq, Repr

/-- An Avro record field: name, id of its type node, optional doc string and
default-value slot (src: `field.name`, `field.type`, `field.doc`,
`field.default`). -/
structure Field where
  name : String
  ty : Nat
  doc : Option String
  default : DefaultState
deriving DecidableEq, Repr

/-- One schema node of the parsed type graph.  `record`/`enum` are the named
types; `array`/`map` hold the id of their item/value node; `union` is the
Python-list representation of a union (its members by id); `primitive` is a
leaf type tag.  `hasattr(x, 'type')` in the source is "not a union node",
`isinstance(x, list)` is "a union node". -/
inductive NodeData where
  | record (name : String) (ns : String) (doc : Option String) (fields : List Field)
  | enum (name : String) (doc : Option String) (symbols : List String)
  | array (items : Nat)
  | map (values : Nat)
  | union (members : List Nat)
  | primitive (tag : String)
deriving DecidableEq, Repr

/-- The object store: node ids are positions in the list. -/
abbrev Store := List NodeData

/-- Fetch the node behind an id (Python attribute access on the object). -/
def lookup (st : Store) (i : Nat) : Option NodeData := st[i]?

/-- The mutable state of the generator that `_extract_nested_types` updates:
`self.records`, `self.enums` (insertion-ordered dicts, modelled as
association lists) and the identity set `self.processed_types`. -/
structure ExtractState where
  records : List (String × Nat)
  enums : List (String × Nat)
  processed : List Nat
deriving DecidableEq, Repr

/-- The fresh generator state (src lines 187–189 reset to this). -/
def initState : ExtractState := ⟨[], [], []⟩

/-- Key list of an association list. -/
def keysOf (l : List (String × Nat)) : List String := l.map Prod.fst

/-- Python `d[k] = v` on an insertion-ordered dict: overwrite in place if the
key is present (keeping its position), otherwise append. -/
def dictSet (l : List (String × Nat)) (k : String) (v : Nat) : List (String × Nat) :=
  if l.any (fun e => e.1 == k) then l.map (fun e => if e.1 == k then (k, v) else e)
  else l ++ [(k, v)]

/-- `_extract_from_type` (src lines 251–284).  Checks the identity guard,
records the id, then dispatches on the node shape: unions recurse into every
member, records register their name (first occurrence wins, line 267) and
recurse into every field type, enums assign `self.enums[name] = node`
unconditionally (line 276), arrays/maps recurse into their item/value node.
The fuel argument stands in for Python's unbounded call stack; a dangling id
(impossible in Python) is recorded and skipped. -/
def extractFrom (st : Store) : Nat → Nat → ExtractState → ExtractState
  | 0, _, σ => σ
  | fuel+1, i, σ =>
    if i ∈ σ.processed then σ
    else
      let σ1 : ExtractState := { σ with processed := i :: σ.processed }
      match lookup st i with
      | some (.union members) =>
          members.foldl (fun τ j => extractFrom st fuel j τ) σ1
      | some (.record n _ _ fields) =>
          let σ2 : ExtractState :=
            if σ1.records.any (fun e => e.1 == n) then σ1
            else { σ1 with records := σ1.records ++ [(n, i)] }
          fields.foldl (fun τ f => extractFrom st fuel f.ty τ) σ2
      | some (.enum n _ _) => { σ1 with enums := dictSet σ1.enums n i }
      | some (.array items) => extractFrom st fuel items σ1
      | some (.map values) => extractFrom st fuel values σ1
      | some (.primitive _) => σ1
      | none => σ1

/-- `_extract_nested_types` (src lines 286–289): if the root is a record,
run `_extract_from_type` on each of its field types; the root node itself is
never added to `processed` and never registered directly. -/
def extractNestedTypes (st : Store) (root : Nat) (σ : ExtractState) : ExtractState :=
  match lookup st root with
  | some (.record _ _ _ fields) =>
      fields.foldl (fun τ f => extractFrom st (st.length + 1) f.ty τ) σ
  | _ => σ

/-- The six relation kinds the source distinguishes: the literal strings it
puts in the dedup tuples (`'record'`, `'enum'`, `'record_list'`,
`'enum_list'`, `'array_record'`, `'array_enum'`). -/
inductive RelTag where
  | record
  | enum
  | record_list
  | enum_list
  | array_record
  | array_enum
deriving DecidableEq, Repr

/-- The four relation kinds in the specification's vocabulary. -/
inductive SpecKind where
  | composition
  | compositionList
  | dependency
  | dependencyList
deriving DecidableEq, Repr

/-- The spec-level classification of each source tag: edges drawn `-->`
are compositions, edges drawn `..>` are dependencies, and list-mediated
containment (union-member and array-element edges) is the `-list` variant. -/
def specKind : RelTag → SpecKind
  | .record => .composition
  | .enum => .dependency
  | .record_list => .compositionList
  | .enum_list => .dependencyList
  | .array_record => .compositionList
  | .array_enum => .dependencyList

/-- One emitted relation: source and target class names, the label printed
after the colon of the Mermaid line (for array edges the element type's
name; rendering appends " liste" to it), and the source's kind tag. -/
structure Edge where
  src : String
  tgt : String
  label : String
  tag : RelTag
deriving DecidableEq, Repr

/-- A dedup tuple as the source builds it: 4-tuples
`(source, target, field_name, tag)` at the direct-field and union-member
sites, 3-tuples `(parent, items_name, tag)` (no field slot) at the two array
sites. -/
abbrev RelKey := String × String × Option String × RelTag

/-- The accumulator of `_generate_class_relations`: the emitted relation
lines (as structured edges, in emission order) and the persistent
`processed_relations` set. -/
structure RelState where
  edges : List Edge
  keys : List RelKey
deriving DecidableEq, Repr

/-- One emission site: `if relation_key not in processed_relations:` append
the line and record the key. -/
def addRelation (σ : RelState) (k : RelKey) (e : Edge) : RelState :=
  if k ∈ σ.keys then σ else { edges := σ.edges ++ [e], keys := k :: σ.keys }

/-- Python truthiness of `parent_name` (src line 124/132): `None` and the
empty string are falsy. -/
def truthyName : Option String → Bool
  | none => false
  | some s => s != ""

/-- Loop body of the union-member handling at src lines 103–117: a record
or enum member of a list-typed field emits an inline edge labelled with the
field's name; any other member is skipped, with no recursion into it. -/
def processUnionMemberRel (st : Store) (name fname : String) (τ : RelState) (j : Nat) :
    RelState :=
  match lookup st j with
  | some (.record rn _ _ _) =>
      addRelation τ (name, rn, some fname, RelTag.record_list)
        ⟨name, rn, fname, RelTag.record_list⟩
  | some (.enum en _ _) =>
      addRelation τ (name, en, some fname, RelTag.enum_list)
        ⟨name, en, fname, RelTag.enum_list⟩
  | _ => τ

/-- Loop body of the field loop at src lines 81–117, parameterised by the
recursive call (`recurse ty parent σ` is `process_type_relations` one depth
deeper).  A field whose type node is a union is handled inline without
recursion; any other field type emits a direct edge when it is a record or
enum (lines 84–96) and is then recursed into with this record as parent
(line 99). -/
def processFieldRel (st : Store) (recurse : Nat → Option String → RelState → RelState)
    (name : String) (τ : RelState) (f : Field) : RelState :=
  match lookup st f.ty with
  | some (.union members) =>
      members.foldl (processUnionMemberRel st name f.name) τ
  | some nd =>
      let τ1 : RelState := match nd with
        | .record rn _ _ _ =>
            addRelation τ (name, rn, some f.name, RelTag.record)
              ⟨name, rn, f.name, RelTag.record⟩
        | .enum en _ _ =>
            addRelation τ (name, en, some f.name, RelTag.enum)
              ⟨name, en, f.name, RelTag.enum⟩
        | _ => τ
      recurse f.ty (some name) τ1
  | none => τ

/-- The array branch at src lines 119–139, parameterised by the recursive
call.  If the element node has a `type` attribute (is not a union): a record
or enum element emits an edge — only when the parent name is truthy —
labelled with the *element type's* name and keyed by the 3-tuple without a
field slot; then the element is recursed into with the same parent. -/
def processArrayRel (st : Store) (recurse : Nat → Option String → RelState → RelState)
    (items : Nat) (parent : Option String) (σ : RelState) : RelState :=
  match lookup st items with
  | some (.union _) => σ
  | none => σ
  | some ind =>
      let σ1 : RelState := match ind with
        | .record rn _ _ _ =>
            if truthyName parent then
              addRelation σ (parent.getD "", rn, none, RelTag.array_record)
                ⟨parent.getD "", rn, rn, RelTag.array_record⟩
            else σ
        | .enum en _ _ =>
            if truthyName parent then
              addRelation σ (parent.getD "", en, none, RelTag.array_enum)
                ⟨parent.getD "", en, en, RelTag.array_enum⟩
            else σ
        | _ => σ
      recurse items parent σ1

/-- `process_type_relations` (src lines 63–139), fuel-indexed: fuel is the
remaining depth allowance `11 - depth`, so fuel 0 is the guard `depth > 10`
(line 67) and every recursive call at `depth + 1` gets one unit less.
Branches, in source order: a union node recurses into its members (lines
71–74, unreachable from a record root); a record node walks its fields with
`processFieldRel`; an array node runs `processArrayRel`; every other shape
(enum, map, primitive) matches no branch and returns. -/
def processTypeRelations (st : Store) : Nat → Nat → Option String → RelState → RelState
  | 0, _, _, σ => σ
  | fuel+1, i, parent, σ =>
    match lookup st i with
    | some (.union members) =>
        members.foldl (fun τ j => processTypeRelations st fuel j parent τ) σ
    | some (.record name _ _ fields) =>
        fields.foldl (processFieldRel st (processTypeRelations st fuel) name) σ
    | some (.array items) =>
        processArrayRel st (processTypeRelations st fuel) items parent σ
    | _ => σ

/-- `process_type_relations` indexed by the source's `depth` counter. -/
def processTypeRelationsAtDepth (st : Store) (depth : Nat) (i : Nat)
    (parent : Option String) (σ : RelState) : RelState :=
  processTypeRelations st (11 - depth) i parent σ

/-- `_generate_class_relations` (src lines 54–144): start from the main
schema with no parent, depth 0, empty accumulator and empty dedup set. -/
def generateClassRelations (st : Store) (root : Nat) : RelState :=
  processTypeRelations st 11 root none ⟨[], []⟩

/-- Concatenation of a list of text chunks: the shallow form of a Python
`doc += chunk` accumulation loop. -/
def strConcat : List String → String
  | [] => ""
  | s :: rest => s ++ strConcat rest

/-- The Mermaid text of one emitted relation (the exact f-strings of lines
88, 95, 109, 116, 127, 135). -/
def renderRelationLine (e : Edge) : String :=
  match e.tag with
  | .record => "    " ++ e.src ++ " --> " ++ e.tgt ++ " : " ++ e.label ++ "\n"
  | .enum => "    " ++ e.src ++ " ..> " ++ e.tgt ++ " : " ++ e.label ++ "\n"
  | .record_list => "    " ++ e.src ++ " --> " ++ e.tgt ++ " : " ++ e.label ++ "\n"
  | .enum_list => "    " ++ e.src ++ " ..> " ++ e.tgt ++ " : " ++ e.label ++ "\n"
  | .array_record => "    " ++ e.src ++ " --> " ++ e.tgt ++ " : " ++ e.label ++ " liste\n"
  | .array_enum => "    " ++ e.src ++ " ..> " ++ e.tgt ++ " : " ++ e.label ++ " liste\n"

/-- The string returned by `_generate_class_relations`: the emitted lines in
emission order. -/
def relationsString (st : Store) (root : Nat) : String :=
  strConcat (((generateClassRelations st root).edges).map renderRelationLine)

/-- Placeholder for Python's `str()` on a schema object that matches no
branch of the type renderers (a primitive's JSON name, or the `repr` of a
union list); its exact text is irrelevant to every claim, only its
determinism matters. -/
def pyStr : NodeData → String
  | .primitive t => "\"" ++ t ++ "\""
  | _ => "[schema]"

/-- `_get_single_mermaid_type` (src lines 157–177), fuel-bounded for the
array/map descent.  A union node has no `type` attribute, so it falls to the
`str()` fallback; parsed field types are objects, never Python `str`s, so
the `isinstance(type_schema, str)` branch never fires and is not modelled. -/
def getSingleMermaidType (st : Store) : Nat → Nat → String
  | 0, _ => ""
  | fuel+1, i =>
    match lookup st i with
    | some (.record n _ _ _) => n
    | some (.enum n _ _) => n
    | some (.array items) => "List<" ++ getSingleMermaidType st fuel items ++ ">"
    | some (.map values) => "Map<" ++ getSingleMermaidType st fuel values ++ ">"
    | some nd => pyStr nd
    | none => ""

/-- `_get_mermaid_field_type` (src lines 146–155): a union joins its
members' single types with " | ". -/
def getMermaidFieldType (st : Store) (i : Nat) : String :=
  match lookup st i with
  | some (.union members) =>
      String.intercalate " | " (members.map (getSingleMermaidType st (st.length + 1)))
  | _ => getSingleMermaidType st (st.length + 1) i

/-- The enum block of `generate_mermaid_class_diagram` (src lines 33–38). -/
def mermaidEnumChunk (st : Store) (e : String × Nat) : String :=
  "    class " ++ e.1 ++ " \x7b\n        <<enumeration>>\n" ++
  (match lookup st e.2 with
   | some (.enum _ _ symbols) =>
       strConcat (symbols.map (fun s => "        " ++ s ++ "\n"))
   | _ => "") ++
  "    \x7d\n"

/-- The record block of `generate_mermaid_class_diagram` (src lines 41–46). -/
def mermaidRecordChunk (st : Store) (e : String × Nat) : String :=
  "    class " ++ e.1 ++ " \x7b\n" ++
  (match lookup st e.2 with
   | some (.record _ _ _ fields) =>
       strConcat (fields.map (fun f =>
         "        " ++ getMermaidFieldType st f.ty ++ " " ++ f.name ++ "\n"))
   | _ => "") ++
  "    \x7d\n"

/-- `generate_mermaid_class_diagram` (src lines 24–52): enums, then records,
then the relation lines, inside a fenced `mermaid` block. -/
def generateMermaidClassDiagram (st : Store) (g : ExtractState) (root : Nat) : String :=
  "```mermaid\nclassDiagram\n" ++
  strConcat (g.enums.map (mermaidEnumChunk st)) ++
  strConcat (g.records.map (mermaidRecordChunk st)) ++
  relationsString st root ++
  "\n```\n"

/-- `_get_single_type_name` (src lines 349–369), fuel-bounded like its
Mermaid twin. -/
def getSingleTypeName (st : Store) : Nat → Nat → String
  | 0, _ => ""
  | fuel+1, i =>
    match lookup st i with
    | some (.record n _ _ _) => "Record (" ++ n ++ ")"
    | some (.enum n _ _) => "Enum (" ++ n ++ ")"
    | some (.array items) => "Tableau de " ++ getSingleTypeName st fuel items
    | some (.map values) => "Map de " ++ getSingleTypeName st fuel values
    | some nd => pyStr nd
    | none => ""

/-- `_get_field_type` (src lines 335–347): unions join with " ou ". -/
def getFieldType (st : Store) (i : Nat) : String :=
  match lookup st i with
  | some (.union members) =>
      String.intercalate " ou " (members.map (getSingleTypeName st (st.length + 1)))
  | _ => getSingleTypeName st (st.length + 1) i

/-- The default-value line of `_parse_record_fields` (src lines 314–321):
no line when there is no default, the literal value when retrieval works,
the "Non spécifiée" placeholder when retrieval raises. -/
def defaultLine : DefaultState → String
  | .absent => ""
  | .present v => "- **Valeur par défaut**: `" ++ v ++ "`\n"
  | .broken => "- **Valeur par défaut**: Non spécifiée\n"

/-- The loop body of `_parse_record_fields` for one field (src lines
302–331).  The `is_detailed` branches at lines 324–329 test
`isinstance(field.type, dict)`, which is false for every parsed field type
(schema objects and lists, never dicts), so they emit nothing and are not
modelled. -/
def fieldDoc (st : Store) (f : Field) : String :=
  "**" ++ f.name ++ "**\n" ++
  "- **Type**: " ++ getFieldType st f.ty ++ "\n" ++
  (match f.doc with
   | some d => if d != "" then "- **Description**: " ++ d ++ "\n" else ""
   | none => "") ++
  defaultLine f.default ++
  "\n"

/-- `_parse_record_fields` (src lines 291–333): the concatenation of the
per-field blocks of a record, the empty string on anything else. -/
def parseRecordFields (st : Store) (i : Nat) : String :=
  match lookup st i with
  | some (.record _ _ _ fields) => strConcat (fields.map (fieldDoc st))
  | _ => ""

/-- One sub-object section of the assembled document (src lines 217–226). -/
def recordSectionChunk (st : Store) (e : String × Nat) : String :=
  "### Sous-Objet: " ++ e.1 ++ "\n\n" ++
  (match lookup st e.2 with
   | some (.record _ _ (some d) _) =>
       if d != "" then "**Description**: " ++ d ++ "\n\n" else ""
   | _ => "") ++
  "#### Champs\n\n" ++
  parseRecordFields st e.2

/-- The "Définition Détaillée des Sous-Objets" part (src lines 215–226),
omitted when no record was registered. -/
def recordsSection (st : Store) (g : ExtractState) : String :=
  if g.records.isEmpty then ""
  else "\n## Définition Détaillée des Sous-Objets\n\n" ++
       strConcat (g.records.map (recordSectionChunk st))

/-- One enumeration section of the assembled document (src lines 231–241). -/
def enumSectionChunk (st : Store) (e : String × Nat) : String :=
  "### Énumération: " ++ e.1 ++ "\n\n" ++
  (match lookup st e.2 with
   | some (.enum _ (some d) _) =>
       if d != "" then "**Description**: " ++ d ++ "\n\n" else ""
   | _ => "") ++
  "**Valeurs possibles**:\n" ++
  (match lookup st e.2 with
   | some (.enum _ _ symbols) =>
       String.intercalate "\n" (symbols.map (fun s => "- `" ++ s ++ "`"))
   | _ => "") ++
  "\n\n"

/-- The "Énumérations" part (src lines 228–241), omitted when no enum was
registered. -/
def enumsSection (st : Store) (g : ExtractState) : String :=
  if g.enums.isEmpty then ""
  else "\n## Énumérations\n\n" ++ strConcat (g.enums.map (enumSectionChunk st))

/-- `generate_markdown_documentation` (src lines 180–243).  The incoming
generator state is the carried `self.records`/`self.enums`/
`self.processed_types`; lines 187–189 reset it before anything is read from
it.  Returns the document and the state the run leaves behind; a root that
is not a record raises in Python when its name is read (line 203) and is
returned as `none` here. -/
def generateMarkdownDocumentation (st : Store) (root : Nat) (_g : ExtractState) :
    Option String × ExtractState :=
  let g1 := extractNestedTypes st root initState
  match lookup st root with
  | some (.record name ns doc _) =>
      (some ("# Documentation du Schéma Avro\n\n" ++
        "## Structure du Schéma\n\n" ++
        generateMermaidClassDiagram st g1 root ++ "\n" ++
        "## Schéma Principal: " ++ name ++ "\n" ++
        "- **Namespace**: " ++ ns ++ "\n" ++
        "- **Type**: record\n" ++
        (match doc with
         | some d => if d != "" then "- **Description**: " ++ d ++ "\n\n" else ""
         | none => "") ++
        "### Structure des Champs\n\n" ++
        parseRecordFields st root ++
        recordsSection st g1 ++
        enumsSection st g1), g1)
  | _ => (none, g1)

/-! ### Traversal structure of the store -/

/-- Boolean one-step traversal relation of the extractor: from a node to the
ids it descends into (record field types, array items, map values, union
members). -/
def stepB (st : Store) (i j : Nat) : Bool :=
  match lookup st i with
  | some (.record _ _ _ fields) => fields.any (fun f => f.ty == j)
  | some (.array items) => items == j
  | some (.map values) => values == j
  | some (.union members) => members.contains j
  | _ => false

/-- One traversal step: `j` sits in a child position of node `i`. -/
def Step (st : Store) (i j : Nat) : Prop := stepB st i j = true

/-- Number of valid node ids not yet visited: the measure that shrinks each
time the identity guard admits a new node. -/
def munv (st : Store) (proc : List Nat) : Nat :=
  ((Finset.range st.length).filter (fun j => j ∉ proc)).card

/-- Progress made by a string of `_extract_from_type` calls: the visited set
and the registry keys only grow, and every node first visited during the
string has, by its end, all of its children visited and its name (if it is a
record or enum) registered. -/
def ExtR (st : Store) (σ σ' : ExtractState) : Prop :=
  σ.processed ⊆ σ'.processed ∧
  (∀ n, n ∈ keysOf σ.records → n ∈ keysOf σ'.records) ∧
  (∀ n, n ∈ keysOf σ.enums → n ∈ keysOf σ'.enums) ∧
  (∀ p ∈ σ'.processed, p ∈ σ.processed ∨
     ((∀ q, Step st p q → q ∈ σ'.processed) ∧
      (∀ n ns d fs, lookup st p = some (.record n ns d fs) → n ∈ keysOf σ'.records) ∧
      (∀ n d ss, lookup st p = some (.enum n d ss) → n ∈ keysOf σ'.enums)))

/-- State invariant of the extraction walk: registry keys stay duplicate
free, every registered entry points at a record/enum node carrying that name,
and every registered node id has been visited. -/
def ExtInv (st : Store) (σ : ExtractState) : Prop :=
  (keysOf σ.records).Nodup ∧ (keysOf σ.enums).Nodup ∧
  (∀ n i, (n, i) ∈ σ.records → ∃ ns d fs, lookup st i = some (.record n ns d fs)) ∧
  (∀ n i, (n, i) ∈ σ.enums → ∃ d ss, lookup st i = some (.enum n d ss)) ∧
  (∀ n i, (n, i) ∈ σ.records → i ∈ σ.processed) ∧
  (∀ n i, (n, i) ∈ σ.enums → i ∈ σ.processed)

/-- Concrete scenario A of the spec: `Person` with a field of type
`Address`. -/
def wStore : Store :=
  [.record "Person" "com.ex" none [⟨"address", 1, none, .absent⟩],
   .record "Address" "com.ex" none []]

/-- Two distinct enum nodes carrying the same name `E`. -/
def enumDupStore : Store :=
  [.record "R" "" none [⟨"a", 1, none, .absent⟩, ⟨"b", 2, none, .absent⟩],
   .enum "E" none ["X"],
   .enum "E" none ["Y"]]

/-- Two distinct record nodes carrying the same name `Dup`. -/
def recordDupStore : Store :=
  [.record "R" "" none [⟨"a", 1, none, .absent⟩, ⟨"b", 2, none, .absent⟩],
   .record "Dup" "" none [],
   .record "Dup" "" (some "second") []]

/-- `doc` contains `x` as a contiguous chunk. -/
def containsChunk (doc x : String) : Prop := ∃ pre post, doc = pre ++ x ++ post

/-- Self-referential store: `selfStore` for the C10 witness. -/
def selfStore : Store := [.record "Root" "" none [⟨"next", 0, none, .absent⟩]]

/-! ### C1: self-reference and the depth guard -/

/-- A record `Node` whose only field has type `Node` itself: the node graph
is a genuine one-node cycle, as produced by the schema parser for a
recursive Avro record. -/
def nodeStore : Store := [.record "Node" "" none [⟨"next", 0, none, .absent⟩]]

/-- Store with a record whose field `x` has a broken default. -/
def brokenStore : Store :=
  [.record "B" "" none [⟨"x", 1, none, .broken⟩], .primitive "string"]

/-- The dedup tuple of an emitted edge: the two array emission sites put no
field slot in the tuple (src lines 125 and 133), every other site records
the label. -/
def edgeKey (e : Edge) : RelKey :=
  match e.tag with
  | .array_record => (e.src, e.tgt, none, e.tag)
  | .array_enum => (e.src, e.tgt, none, e.tag)
  | _ => (e.src, e.tgt, some e.label, e.tag)

/-- Invariant of the relation accumulator: emitted edges have pairwise
distinct dedup tuples, the `processed_relations` set holds exactly the
tuples of the emitted edges, and array-site edges are labelled with their
target (the element type's name). -/
def RelInv (σ : RelState) : Prop :=
  (σ.edges.map edgeKey).Nodup ∧
  (∀ k, k ∈ σ.keys ↔ k ∈ σ.edges.map edgeKey) ∧
  (∀ e ∈ σ.edges, (e.tag = .array_record ∨ e.tag = .array_enum) → e.label = e.tgt)

/-- Growth of the relation accumulator: edges and dedup tuples are only
added, never removed. -/
def RelMono (σ σ' : RelState) : Prop :=
  (∀ e ∈ σ.edges, e ∈ σ'.edges) ∧ (∀ k ∈ σ.keys, k ∈ σ'.keys)

/-! ### C8: shapes with no branch (map, primitive) -/

/-- A record whose only field is a map whose value type is the record
`Inner`, which itself contains a record field of type `Other`. -/
def mapStore : Store :=
  [.record "R" "" none [⟨"m", 1, none, .absent⟩],
   .map 2,
   .record "Inner" "" none [⟨"g", 3, none, .absent⟩],
   .record "Other" "" none []]

/-! ### C7: union-typed fields -/

/-- A record whose field `f` is a union holding the record `Inner`, which
itself contains a record field of type `Other`. -/
def unionNestStore : Store :=
  [.record "R" "" none [⟨"f", 1, none, .absent⟩],
   .union [2],
   .record "Inner" "" none [⟨"g", 3, none, .absent⟩],
   .record "Other" "" none []]

/-! ### C6: array element edges and their labels -/

/-- A record whose field `u` is a union holding an array of the record
`Q`. -/
def unionArrayStore : Store :=
  [.record "P" "" none [⟨"u", 1, none, .absent⟩],
   .union [2],
   .array 3,
   .record "Q" "" none []]

/-- `Person`-style record with a direct `List<Address>` field. -/
def arrStore : Store :=
  [.record "P" "" none [⟨"addresses", 1, none, .absent⟩],
   .array 2,
   .record "Address" "" none []]

example : extractFrom [NodeData.record "A" "" none [⟨"x", 1, none, .absent⟩],
    NodeData.enum "E" none ["P"]] 3 0 initState
  = ⟨[("A", 0)], [("E", 1)], [1, 0]⟩ := by decide

example : (generateClassRelations
    [NodeData.record "Node" "" none [⟨"next", 0, none, .absent⟩]] 0).edges
  = [⟨"Node", "Node", "next", RelTag.record⟩] := by decide

lemma step_record {st : Store} {i : Nat} {n ns d fs} (h : lookup st i = some (.record n ns d fs)) :
    ∀ j, Step st i j ↔ ∃ f ∈ fs, f.ty = j := by
  intro j; simp [Step, stepB, h]

lemma step_array {st : Store} {i : Nat} {items} (h : lookup st i = some (.array items)) :
    ∀ j, Step st i j ↔ items = j := by
  intro j; simp [Step, stepB, h]

lemma step_map {st : Store} {i : Nat} {values} (h : lookup st i = some (.map values)) :
    ∀ j, Step st i j ↔ values = j := by
  intro j; simp [Step, stepB, h]

lemma step_union {st : Store} {i : Nat} {members} (h : lookup st i = some (.union members)) :
    ∀ j, Step st i j ↔ j ∈ members := by
  intro j; simp [Step, stepB, h]

lemma step_none {st : Store} {i : Nat}
    (h : lookup st i = none ∨ (∃ n d ss, lookup st i = some (.enum n d ss)) ∨
         (∃ t, lookup st i = some (.primitive t))) :
    ∀ j, ¬ Step st i j := by
  intro j
  rcases h with h | ⟨n, d, ss, h⟩ | ⟨t, h⟩ <;> simp [Step, stepB, h]

lemma lookup_lt {st : Store} {i : Nat} {nd} (h : lookup st i = some nd) : i < st.length := by
  rcases List.getElem?_eq_some.1 h with ⟨h1, _⟩
  exact h1

lemma munv_mono (st : Store) {p q : List Nat} (h : p ⊆ q) : munv st q ≤ munv st p := by
  apply Finset.card_le_card
  intro j hj
  rw [Finset.mem_filter] at hj ⊢
  exact ⟨hj.1, fun hc => hj.2 (h hc)⟩

lemma munv_lt (st : Store) {p : List Nat} {i : Nat} (hi : i < st.length) (hnp : i ∉ p) :
    munv st (i :: p) < munv st p := by
  apply Finset.card_lt_card
  constructor
  · intro j hj
    rw [Finset.mem_filter] at hj ⊢
    exact ⟨hj.1, fun hc => hj.2 (List.mem_cons_of_mem _ hc)⟩
  · intro hsub
    have hmem : i ∈ (Finset.range st.length).filter (fun j => j ∉ p) := by
      rw [Finset.mem_filter]
      exact ⟨Finset.mem_range.2 hi, hnp⟩
    have := hsub hmem
    rw [Finset.mem_filter] at this
    exact this.2 (List.mem_cons_self _ _)

/-! ### Dictionary lemmas -/

lemma any_key_iff (l : List (String × Nat)) (k : String) :
    (l.any (fun e => e.1 == k) = true) ↔ k ∈ keysOf l := by
  simp [keysOf, List.any_eq_true]

lemma keysOf_dictSet (l : List (String × Nat)) (k : String) (v : Nat) :
    keysOf (dictSet l k v) = if k ∈ keysOf l then keysOf l else keysOf l ++ [k] := by
  unfold dictSet
  by_cases h : l.any (fun e => e.1 == k) = true
  · rw [if_pos h, if_pos ((any_key_iff l k).1 h)]
    unfold keysOf
    rw [List.map_map]
    apply List.map_congr_left
    intro e _
    by_cases he : e.1 = k <;> simp [he]
  · rw [if_neg h, if_neg (fun hc => h ((any_key_iff l k).2 hc))]
    simp [keysOf]

lemma mem_keysOf_dictSet {l : List (String × Nat)} {m : String} (k : String) (v : Nat)
    (h : m ∈ keysOf l) : m ∈ keysOf (dictSet l k v) := by
  rw [keysOf_dictSet]
  by_cases hk : k ∈ keysOf l <;> simp [hk, h]

lemma key_mem_dictSet (l : List (String × Nat)) (k : String) (v : Nat) :
    k ∈ keysOf (dictSet l k v) := by
  rw [keysOf_dictSet]
  by_cases hk : k ∈ keysOf l <;> simp [hk]

lemma nodup_keysOf_dictSet {l : List (String × Nat)} (k : String) (v : Nat)
    (h : (keysOf l).Nodup) : (keysOf (dictSet l k v)).Nodup := by
  rw [keysOf_dictSet]
  by_cases hk : k ∈ keysOf l
  · simpa [hk]
  · simp only [hk, if_false]
    rw [List.nodup_append]
    refine ⟨h, List.nodup_singleton _, ?_⟩
    intro a ha hb
    rw [List.mem_singleton] at hb
    exact hk (hb ▸ ha)

lemma mem_dictSet {l : List (String × Nat)} {m : String} {w : Nat} {k : String} {v : Nat}
    (h : (m, w) ∈ dictSet l k v) : (m, w) ∈ l ∨ (m = k ∧ w = v) := by
  unfold dictSet at h
  by_cases ha : l.any (fun e => e.1 == k) = true
  · rw [if_pos ha] at h
    rcases List.mem_map.1 h with ⟨e, he, heq⟩
    by_cases hek : e.1 = k
    · rw [if_pos (by simpa using hek)] at heq
      injection heq with h1 h2
      exact Or.inr ⟨h1.symm, h2.symm⟩
    · rw [if_neg (by simpa using hek)] at heq
      left; exact heq ▸ he
  · rw [if_neg ha] at h
    rcases List.mem_append.1 h with h | h
    · left; exact h
    · right; simpa using List.mem_singleton.1 h

/-! ### Closure and registration facts of the extraction walk -/

lemma extractFrom_zero (st : Store) (i : Nat) (σ : ExtractState) :
    extractFrom st 0 i σ = σ := rfl

lemma extractFrom_succ (st : Store) (fuel i : Nat) (σ : ExtractState) :
    extractFrom st (fuel+1) i σ =
      if i ∈ σ.processed then σ
      else
        let σ1 : ExtractState := { σ with processed := i :: σ.processed }
        match lookup st i with
        | some (.union members) =>
            members.foldl (fun τ j => extractFrom st fuel j τ) σ1
        | some (.record n _ _ fields) =>
            let σ2 : ExtractState :=
              if σ1.records.any (fun e => e.1 == n) then σ1
              else { σ1 with records := σ1.records ++ [(n, i)] }
            fields.foldl (fun τ f => extractFrom st fuel f.ty τ) σ2
        | some (.enum n _ _) => { σ1 with enums := dictSet σ1.enums n i }
        | some (.array items) => extractFrom st fuel items σ1
        | some (.map values) => extractFrom st fuel values σ1
        | some (.primitive _) => σ1
        | none => σ1 := rfl

lemma ExtR_refl (st : Store) (σ : ExtractState) : ExtR st σ σ :=
  ⟨fun _ hx => hx, fun _ h => h, fun _ h => h, fun _ hp => Or.inl hp⟩

lemma ExtR_trans {st : Store} {σ1 σ2 σ3 : ExtractState}
    (h12 : ExtR st σ1 σ2) (h23 : ExtR st σ2 σ3) : ExtR st σ1 σ3 := by
  obtain ⟨a12, b12, c12, d12⟩ := h12
  obtain ⟨a23, b23, c23, d23⟩ := h23
  refine ⟨fun x hx => a23 (a12 hx), fun n hn => b23 n (b12 n hn),
    fun n hn => c23 n (c12 n hn), ?_⟩
  intro p hp
  rcases d23 p hp with hp2 | hfacts
  · rcases d12 p hp2 with hp1 | hfacts1
    · exact Or.inl hp1
    · exact Or.inr ⟨fun q hq => a23 (hfacts1.1 q hq),
        fun n ns d fs hl => b23 n (hfacts1.2.1 n ns d fs hl),
        fun n d ss hl => c23 n (hfacts1.2.2 n d ss hl)⟩
  · exact Or.inr hfacts

lemma extractFold_spec (st : Store) (fuel : Nat)
    (IH : ∀ i σ, munv st σ.processed < fuel →
      ExtR st σ (extractFrom st fuel i σ) ∧ i ∈ (extractFrom st fuel i σ).processed) :
    ∀ (l : List Nat) (τ : ExtractState), munv st τ.processed < fuel →
      ExtR st τ (l.foldl (fun τ' j => extractFrom st fuel j τ') τ) ∧
      ∀ j ∈ l, j ∈ (l.foldl (fun τ' j => extractFrom st fuel j τ') τ).processed := by
  intro l
  induction l with
  | nil => intro τ _; exact ⟨ExtR_refl st τ, by simp⟩
  | cons x xs ih =>
    intro τ h
    simp only [List.foldl_cons]
    obtain ⟨hR, hx⟩ := IH x τ h
    have hμ : munv st (extractFrom st fuel x τ).processed < fuel :=
      lt_of_le_of_lt (munv_mono st hR.1) h
    obtain ⟨hR2, hmem⟩ := ih (extractFrom st fuel x τ) hμ
    refine ⟨ExtR_trans hR hR2, ?_⟩
    intro j hj
    rcases List.mem_cons.1 hj with rfl | hj
    · exact hR2.1 hx
    · exact hmem j hj

/-- Main walk lemma: with fuel exceeding the number of unvisited valid ids,
one `_extract_from_type` call makes `ExtR` progress and leaves its argument
visited.  This is the adequacy of the fuel embedding: the identity guard
admits a new valid id at every descending level, so the given fuel never
truncates the Python recursion. -/
lemma extractFrom_spec (st : Store) :
    ∀ fuel i σ, munv st σ.processed < fuel →
      ExtR st σ (extractFrom st fuel i σ) ∧ i ∈ (extractFrom st fuel i σ).processed := by
  intro fuel
  induction fuel with
  | zero => intro i σ h; exact absurd h (Nat.not_lt_zero _)
  | succ fuel ih =>
    intro i σ h
    by_cases hip : i ∈ σ.processed
    · rw [extractFrom_succ, if_pos hip]
      exact ⟨ExtR_refl st σ, hip⟩
    rw [extractFrom_succ, if_neg hip]
    have hsub1 : σ.processed ⊆ i :: σ.processed := fun x hx => List.mem_cons_of_mem _ hx
    cases hnd : lookup st i with
    | none =>
        simp only [hnd]
        refine ⟨⟨hsub1, fun n hn => hn, fun n hn => hn, ?_⟩, List.mem_cons_self _ _⟩
        intro p hp
        rcases List.mem_cons.1 hp with rfl | hp
        · exact Or.inr ⟨fun q hq => absurd hq (step_none (Or.inl hnd) q),
            fun n ns d fs hl => (by simp [hnd] at hl),
            fun n d ss hl => (by simp [hnd] at hl)⟩
        · exact Or.inl hp
    | some nd =>
      have hval : i < st.length := lookup_lt hnd
      have hμ1 : munv st (i :: σ.processed) < fuel := by
        have := munv_lt st hval hip
        omega
      cases nd with
      | primitive t =>
          simp only [hnd]
          refine ⟨⟨hsub1, fun n hn => hn, fun n hn => hn, ?_⟩, List.mem_cons_self _ _⟩
          intro p hp
          rcases List.mem_cons.1 hp with rfl | hp
          · exact Or.inr ⟨fun q hq => absurd hq (step_none (Or.inr (Or.inr ⟨t, hnd⟩)) q),
              fun n ns d fs hl => (by simp [hnd] at hl),
              fun n d ss hl => (by simp [hnd] at hl)⟩
          · exact Or.inl hp
      | enum n d ss =>
          simp only [hnd]
          refine ⟨⟨hsub1, fun m hm => hm, fun m hm => mem_keysOf_dictSet n i hm, ?_⟩,
            List.mem_cons_self _ _⟩
          intro p hp
          rcases List.mem_cons.1 hp with rfl | hp
          · refine Or.inr ⟨fun q hq => absurd hq (step_none (Or.inr (Or.inl ⟨n, d, ss, hnd⟩)) q),
              fun m ns' d' fs' hl => (by simp [hnd] at hl), ?_⟩
            intro m d' ss' hl
            rw [hnd] at hl
            injection hl with hl'
            injection hl' with h1 _ _
            exact h1 ▸ key_mem_dictSet _ n _
          · exact Or.inl hp
      | array items =>
          simp only [hnd]
          obtain ⟨hR, hitems⟩ := ih items { σ with processed := i :: σ.processed } hμ1
          refine ⟨⟨fun x hx => hR.1 (hsub1 hx), hR.2.1, hR.2.2.1, ?_⟩,
            hR.1 (List.mem_cons_self _ _)⟩
          intro p hp
          rcases hR.2.2.2 p hp with hp1 | hfacts
          · rcases List.mem_cons.1 hp1 with rfl | hp0
            · refine Or.inr ⟨fun q hq => ?_, fun n ns' d' fs' hl => (by simp [hnd] at hl),
                fun n d' ss' hl => (by simp [hnd] at hl)⟩
              have : items = q := (step_array hnd q).1 hq
              exact this ▸ hitems
            · exact Or.inl hp0
          · exact Or.inr hfacts
      | map values =>
          simp only [hnd]
          obtain ⟨hR, hvalues⟩ := ih values { σ with processed := i :: σ.processed } hμ1
          refine ⟨⟨fun x hx => hR.1 (hsub1 hx), hR.2.1, hR.2.2.1, ?_⟩,
            hR.1 (List.mem_cons_self _ _)⟩
          intro p hp
          rcases hR.2.2.2 p hp with hp1 | hfacts
          · rcases List.mem_cons.1 hp1 with rfl | hp0
            · refine Or.inr ⟨fun q hq => ?_, fun n ns' d' fs' hl => (by simp [hnd] at hl),
                fun n d' ss' hl => (by simp [hnd] at hl)⟩
              have : values = q := (step_map hnd q).1 hq
              exact this ▸ hvalues
            · exact Or.inl hp0
          · exact Or.inr hfacts
      | union members =>
          simp only [hnd]
          obtain ⟨hR, hmem⟩ :=
            extractFold_spec st fuel ih members { σ with processed := i :: σ.processed } hμ1
          refine ⟨⟨fun x hx => hR.1 (hsub1 hx), hR.2.1, hR.2.2.1, ?_⟩,
            hR.1 (List.mem_cons_self _ _)⟩
          intro p hp
          rcases hR.2.2.2 p hp with hp1 | hfacts
          · rcases List.mem_cons.1 hp1 with rfl | hp0
            · refine Or.inr ⟨fun q hq => hmem q ((step_union hnd q).1 hq),
                fun n ns' d' fs' hl => (by simp [hnd] at hl),
                fun n d' ss' hl => (by simp [hnd] at hl)⟩
            · exact Or.inl hp0
          · exact Or.inr hfacts
      | record n ns dd fields =>
          simp only [hnd]
          split
          next hreg =>
            have hkeys2 : n ∈ keysOf σ.records := (any_key_iff σ.records n).1 hreg
            rw [← List.foldl_map Field.ty (fun τ j => extractFrom st fuel j τ)]
            obtain ⟨hR, hmem⟩ := extractFold_spec st fuel ih (fields.map Field.ty)
              { σ with processed := i :: σ.processed } hμ1
            refine ⟨⟨fun x hx => hR.1 (hsub1 hx), hR.2.1, hR.2.2.1, ?_⟩,
              hR.1 (List.mem_cons_self _ _)⟩
            intro p hp
            rcases hR.2.2.2 p hp with hp1 | hfacts
            · rcases List.mem_cons.1 hp1 with rfl | hp0
              · refine Or.inr ⟨?_, ?_, fun m d' ss' hl => (by simp [hnd] at hl)⟩
                · intro q hq
                  obtain ⟨f, hf, rfl⟩ := (step_record hnd q).1 hq
                  exact hmem f.ty (List.mem_map.2 ⟨f, hf, rfl⟩)
                · intro m ns' d' fs' hl
                  rw [hnd] at hl
                  injection hl with hl'
                  injection hl' with h1 _ _ _
                  exact h1 ▸ hR.2.1 n hkeys2
              · exact Or.inl hp0
            · exact Or.inr hfacts
          next hreg =>
            rw [← List.foldl_map Field.ty (fun τ j => extractFrom st fuel j τ)]
            obtain ⟨hR, hmem⟩ := extractFold_spec st fuel ih (fields.map Field.ty)
              { σ with processed := i :: σ.processed, records := σ.records ++ [(n, i)] }
              hμ1
            have hksub : ∀ m, m ∈ keysOf σ.records → m ∈ keysOf (σ.records ++ [(n, i)]) := by
              intro m hm
              simp only [keysOf, List.map_append] at *
              exact List.mem_append_left _ hm
            have hkeys2 : n ∈ keysOf (σ.records ++ [(n, i)]) := by
              simp [keysOf]
            refine ⟨⟨fun x hx => hR.1 (hsub1 hx), fun m hm => hR.2.1 m (hksub m hm),
              hR.2.2.1, ?_⟩, hR.1 (List.mem_cons_self _ _)⟩
            intro p hp
            rcases hR.2.2.2 p hp with hp1 | hfacts
            · rcases List.mem_cons.1 hp1 with rfl | hp0
              · refine Or.inr ⟨?_, ?_, fun m d' ss' hl => (by simp [hnd] at hl)⟩
                · intro q hq
                  obtain ⟨f, hf, rfl⟩ := (step_record hnd q).1 hq
                  exact hmem f.ty (List.mem_map.2 ⟨f, hf, rfl⟩)
                · intro m ns' d' fs' hl
                  rw [hnd] at hl
                  injection hl with hl'
                  injection hl' with h1 _ _ _
                  exact h1 ▸ hR.2.1 n hkeys2
              · exact Or.inl hp0
            · exact Or.inr hfacts

lemma munv_le (st : Store) (proc : List Nat) : munv st proc ≤ st.length := by
  calc munv st proc ≤ (Finset.range st.length).card := Finset.card_filter_le _ _
    _ = st.length := Finset.card_range _

lemma foldl_preserve {α β : Type} (P : β → Prop) (g : β → α → β)
    (hg : ∀ τ x, P τ → P (g τ x)) :
    ∀ (l : List α) (τ : β), P τ → P (l.foldl g τ) := by
  intro l
  induction l with
  | nil => intro τ h; exact h
  | cons x xs ih => intro τ h; exact ih (g τ x) (hg τ x h)

lemma nodup_keysOf_append {l : List (String × Nat)} {n : String} (i : Nat)
    (h : (keysOf l).Nodup) (hn : n ∉ keysOf l) : (keysOf (l ++ [(n, i)])).Nodup := by
  have he : keysOf (l ++ [(n, i)]) = keysOf l ++ [n] := by simp [keysOf]
  rw [he, List.nodup_append]
  refine ⟨h, List.nodup_singleton _, ?_⟩
  intro a ha hb
  rw [List.mem_singleton] at hb
  exact hn (hb ▸ ha)

lemma extractFrom_inv (st : Store) :
    ∀ fuel i σ, ExtInv st σ → ExtInv st (extractFrom st fuel i σ) := by
  intro fuel
  induction fuel with
  | zero => intro i σ h; exact h
  | succ fuel ih =>
    intro i σ h
    by_cases hip : i ∈ σ.processed
    · rw [extractFrom_succ, if_pos hip]; exact h
    rw [extractFrom_succ, if_neg hip]
    have h1 : ExtInv st { σ with processed := i :: σ.processed } :=
      ⟨h.1, h.2.1, h.2.2.1, h.2.2.2.1,
        fun n j hm => List.mem_cons_of_mem _ (h.2.2.2.2.1 n j hm),
        fun n j hm => List.mem_cons_of_mem _ (h.2.2.2.2.2 n j hm)⟩
    cases hnd : lookup st i with
    | none => simp only [hnd]; exact h1
    | some nd =>
      cases nd with
      | primitive t => simp only [hnd]; exact h1
      | enum n d ss =>
          simp only [hnd]
          refine ⟨h1.1, nodup_keysOf_dictSet n i h1.2.1, h1.2.2.1, ?_, h1.2.2.2.2.1, ?_⟩
          · intro m j hm
            rcases mem_dictSet hm with hm | ⟨rfl, rfl⟩
            · exact h1.2.2.2.1 m j hm
            · exact ⟨d, ss, hnd⟩
          · intro m j hm
            rcases mem_dictSet hm with hm | ⟨rfl, rfl⟩
            · exact h1.2.2.2.2.2 m j hm
            · exact List.mem_cons_self _ _
      | array items => simp only [hnd]; exact ih items _ h1
      | map values => simp only [hnd]; exact ih values _ h1
      | union members =>
          simp only [hnd]
          exact foldl_preserve _ _ (fun τ x hτ => ih x τ hτ) members _ h1
      | record n ns dd fields =>
          simp only [hnd]
          split
          next hreg =>
            exact foldl_preserve _ _ (fun τ f hτ => ih f.ty τ hτ) fields _ h1
          next hreg =>
            have hnotin : n ∉ keysOf σ.records := fun hc => hreg ((any_key_iff _ n).2 hc)
            have h2 : ExtInv st
                { σ with processed := i :: σ.processed,
                         records := σ.records ++ [(n, i)] } := by
              refine ⟨nodup_keysOf_append i h.1 hnotin, h.2.1, ?_, h.2.2.2.1, ?_, ?_⟩
              · intro m j hm
                rcases List.mem_append.1 hm with hm | hm
                · exact h.2.2.1 m j hm
                · rw [List.mem_singleton] at hm
                  injection hm with hm1 hm2
                  exact hm1 ▸ hm2 ▸ ⟨ns, dd, fields, hnd⟩
              · intro m j hm
                rcases List.mem_append.1 hm with hm | hm
                · exact List.mem_cons_of_mem _ (h.2.2.2.2.1 m j hm)
                · rw [List.mem_singleton] at hm
                  injection hm with _ hm2
                  exact hm2 ▸ List.mem_cons_self _ _
              · intro m j hm
                exact List.mem_cons_of_mem _ (h.2.2.2.2.2 m j hm)
            exact foldl_preserve _ _ (fun τ f hτ => ih f.ty τ hτ) fields _ h2

/-- Fold counterpart of `extractFrom_reach`. -/
lemma extractFold_reach (st : Store) (fuel : Nat)
    (IH : ∀ i σ p, p ∈ (extractFrom st fuel i σ).processed →
      p ∈ σ.processed ∨ Relation.ReflTransGen (Step st) i p) :
    ∀ (l : List Nat) (τ : ExtractState) (p : Nat),
      p ∈ (l.foldl (fun τ' j => extractFrom st fuel j τ') τ).processed →
      p ∈ τ.processed ∨ ∃ j ∈ l, Relation.ReflTransGen (Step st) j p := by
  intro l
  induction l with
  | nil => intro τ p hp; exact Or.inl hp
  | cons x xs ih =>
    intro τ p hp
    simp only [List.foldl_cons] at hp
    rcases ih _ p hp with hp1 | ⟨j, hj, hr⟩
    · rcases IH x τ p hp1 with h0 | hr
      · exact Or.inl h0
      · exact Or.inr ⟨x, List.mem_cons_self _ _, hr⟩
    · exact Or.inr ⟨j, List.mem_cons_of_mem _ hj, hr⟩

/-- Soundness of the visited set: everything `_extract_from_type` visits is
reachable from the node it was called on. -/
lemma extractFrom_reach (st : Store) :
    ∀ fuel i σ p, p ∈ (extractFrom st fuel i σ).processed →
      p ∈ σ.processed ∨ Relation.ReflTransGen (Step st) i p := by
  intro fuel
  induction fuel with
  | zero => intro i σ p hp; exact Or.inl hp
  | succ fuel ih =>
    intro i σ p hp
    by_cases hip : i ∈ σ.processed
    · rw [extractFrom_succ, if_pos hip] at hp; exact Or.inl hp
    rw [extractFrom_succ, if_neg hip] at hp
    cases hnd : lookup st i with
    | none =>
        simp only [hnd] at hp
        rcases List.mem_cons.1 hp with rfl | hp
        · exact Or.inr Relation.ReflTransGen.refl
        · exact Or.inl hp
    | some nd =>
      cases nd with
      | primitive t =>
          simp only [hnd] at hp
          rcases List.mem_cons.1 hp with rfl | hp
          · exact Or.inr Relation.ReflTransGen.refl
          · exact Or.inl hp
      | enum n d ss =>
          simp only [hnd] at hp
          rcases List.mem_cons.1 hp with rfl | hp
          · exact Or.inr Relation.ReflTransGen.refl
          · exact Or.inl hp
      | array items =>
          simp only [hnd] at hp
          rcases ih items _ p hp with hp1 | hr
          · rcases List.mem_cons.1 hp1 with rfl | hp0
            · exact Or.inr Relation.ReflTransGen.refl
            · exact Or.inl hp0
          · exact Or.inr (Relation.ReflTransGen.head ((step_array hnd items).2 rfl) hr)
      | map values =>
          simp only [hnd] at hp
          rcases ih values _ p hp with hp1 | hr
          · rcases List.mem_cons.1 hp1 with rfl | hp0
            · exact Or.inr Relation.ReflTransGen.refl
            · exact Or.inl hp0
          · exact Or.inr (Relation.ReflTransGen.head ((step_map hnd values).2 rfl) hr)
      | union members =>
          simp only [hnd] at hp
          rcases extractFold_reach st fuel ih members _ p hp with hp1 | ⟨j, hj, hr⟩
          · rcases List.mem_cons.1 hp1 with rfl | hp0
            · exact Or.inr Relation.ReflTransGen.refl
            · exact Or.inl hp0
          · exact Or.inr (Relation.ReflTransGen.head ((step_union hnd j).2 hj) hr)
      | record n ns dd fields =>
          simp only [hnd] at hp
          rw [← List.foldl_map Field.ty (fun τ j => extractFrom st fuel j τ)] at hp
          split at hp
          next hreg =>
            rcases extractFold_reach st fuel ih (fields.map Field.ty) _ p hp
              with hp1 | ⟨j, hj, hr⟩
            · rcases List.mem_cons.1 hp1 with rfl | hp0
              · exact Or.inr Relation.ReflTransGen.refl
              · exact Or.inl hp0
            · obtain ⟨f, hf, rfl⟩ := List.mem_map.1 hj
              exact Or.inr (Relation.ReflTransGen.head
                ((step_record hnd f.ty).2 ⟨f, hf, rfl⟩) hr)
          next hreg =>
            rcases extractFold_reach st fuel ih (fields.map Field.ty) _ p hp
              with hp1 | ⟨j, hj, hr⟩
            · rcases List.mem_cons.1 hp1 with rfl | hp0
              · exact Or.inr Relation.ReflTransGen.refl
              · exact Or.inl hp0
            · obtain ⟨f, hf, rfl⟩ := List.mem_map.1 hj
              exact Or.inr (Relation.ReflTransGen.head
                ((step_record hnd f.ty).2 ⟨f, hf, rfl⟩) hr)

lemma ExtInv_init (st : Store) : ExtInv st initState := by
  refine ⟨List.nodup_nil, List.nodup_nil, ?_, ?_, ?_, ?_⟩ <;>
    exact fun n i h => absurd h (List.not_mem_nil _)

/-- `_extract_nested_types` from a record root makes `ExtR` progress and
visits every root field type. -/
lemma extractNested_spec (st : Store) (root : Nat) {rn ns : String} {d : Option String}
    {fields : List Field}
    (hroot : lookup st root = some (.record rn ns d fields)) (σ : ExtractState) :
    ExtR st σ (extractNestedTypes st root σ) ∧
    ∀ f ∈ fields, f.ty ∈ (extractNestedTypes st root σ).processed := by
  simp only [extractNestedTypes, hroot]
  rw [← List.foldl_map Field.ty (fun τ j => extractFrom st (st.length + 1) j τ)]
  have hμ0 : munv st σ.processed < st.length + 1 :=
    Nat.lt_succ_of_le (munv_le st σ.processed)
  obtain ⟨hR, hmem⟩ := extractFold_spec st (st.length + 1)
    (fun i σ' hμ => extractFrom_spec st (st.length + 1) i σ' hμ)
    (fields.map Field.ty) σ hμ0
  exact ⟨hR, fun f hf => hmem f.ty (List.mem_map.2 ⟨f, hf, rfl⟩)⟩

lemma extractNested_inv (st : Store) (root : Nat) (σ : ExtractState) (h : ExtInv st σ) :
    ExtInv st (extractNestedTypes st root σ) := by
  unfold extractNestedTypes
  cases hroot : lookup st root with
  | none => exact h
  | some nd =>
    cases nd with
    | record n ns d fields =>
        exact foldl_preserve _ _ (fun τ f hτ => extractFrom_inv st _ f.ty τ hτ) fields σ h
    | enum n d ss => exact h
    | array it => exact h
    | map v => exact h
    | union ms => exact h
    | primitive t => exact h

lemma extractNested_reach (st : Store) (root : Nat) {rn ns : String} {d : Option String}
    {fields : List Field}
    (hroot : lookup st root = some (.record rn ns d fields)) (σ : ExtractState) :
    ∀ p ∈ (extractNestedTypes st root σ).processed,
      p ∈ σ.processed ∨ ∃ f ∈ fields, Relation.ReflTransGen (Step st) f.ty p := by
  simp only [extractNestedTypes, hroot]
  rw [← List.foldl_map Field.ty (fun τ j => extractFrom st (st.length + 1) j τ)]
  intro p hp
  rcases extractFold_reach st (st.length + 1)
      (fun i σ' p' => extractFrom_reach st (st.length + 1) i σ' p')
      (fields.map Field.ty) σ p hp with h | ⟨j, hj, hr⟩
  · exact Or.inl h
  · obtain ⟨f, hf, rfl⟩ := List.mem_map.1 hj
    exact Or.inr ⟨f, hf, hr⟩

/-- Everything reachable from a record root (in one or more steps) is
visited by the run of `_extract_nested_types` started on the fresh state. -/
lemma extractNested_processed (st : Store) (root : Nat) {rn ns : String} {d : Option String}
    {fields : List Field}
    (hroot : lookup st root = some (.record rn ns d fields)) :
    ∀ j, Relation.TransGen (Step st) root j →
      j ∈ (extractNestedTypes st root initState).processed := by
  obtain ⟨hR, hfieldmem⟩ := extractNested_spec st root hroot initState
  intro j hj
  rw [Relation.TransGen.head'_iff] at hj
  obtain ⟨b, hb, hbr⟩ := hj
  obtain ⟨f, hf, rfl⟩ := (step_record hroot b).1 hb
  have hstart := hfieldmem f hf
  induction hbr with
  | refl => exact hstart
  | tail h1 h2 ih =>
      rcases hR.2.2.2 _ ih with h0 | hfacts
      · exact absurd h0 (List.not_mem_nil _)
      · exact hfacts.1 _ h2

/-! ### Claims about the registry (C2, C3) -/

/-- C2: after `_extract_nested_types` runs on a record root, every named
record or enum reachable from the root by following fields, array elements,
map values and union members is registered under its name; the registry key
lists are duplicate-free, so each name appears exactly once; and only record
nodes (resp. enum nodes) are ever registered — never an anonymous,
primitive, array, map or union node. -/
theorem claim_C2_registry_completeness (st : Store) (root : Nat) (rn ns : String)
    (d : Option String) (fields : List Field)
    (hroot : lookup st root = some (.record rn ns d fields)) :
    (∀ j n ns' d' fs', Relation.TransGen (Step st) root j →
        lookup st j = some (.record n ns' d' fs') →
        n ∈ keysOf (extractNestedTypes st root initState).records) ∧
    (∀ j n d' ss, Relation.TransGen (Step st) root j →
        lookup st j = some (.enum n d' ss) →
        n ∈ keysOf (extractNestedTypes st root initState).enums) ∧
    (keysOf (extractNestedTypes st root initState).records).Nodup ∧
    (keysOf (extractNestedTypes st root initState).enums).Nodup ∧
    (∀ n i, (n, i) ∈ (extractNestedTypes st root initState).records →
        ∃ ns' d' fs', lookup st i = some (.record n ns' d' fs')) ∧
    (∀ n i, (n, i) ∈ (extractNestedTypes st root initState).enums →
        ∃ d' ss, lookup st i = some (.enum n d' ss)) := by
  obtain ⟨hR, hfieldmem⟩ := extractNested_spec st root hroot initState
  have hinv := extractNested_inv st root initState (ExtInv_init st)
  have hproc := extractNested_processed st root hroot
  refine ⟨?_, ?_, hinv.1, hinv.2.1, hinv.2.2.1, hinv.2.2.2.1⟩
  · intro j n ns' d' fs' htg hl
    rcases hR.2.2.2 j (hproc j htg) with h0 | hfacts
    · exact absurd h0 (List.not_mem_nil _)
    · exact hfacts.2.1 n ns' d' fs' hl
  · intro j n d' ss htg hl
    rcases hR.2.2.2 j (hproc j htg) with h0 | hfacts
    · exact absurd h0 (List.not_mem_nil _)
    · exact hfacts.2.2 n d' ss hl

theorem claim_C2_registry_completeness_witness :
    "Address" ∈ keysOf (extractNestedTypes wStore 0 initState).records ∧
    (keysOf (extractNestedTypes wStore 0 initState).records).Nodup := by
  have h := claim_C2_registry_completeness wStore 0 "Person" "com.ex" none
    [⟨"address", 1, none, .absent⟩] rfl
  refine ⟨h.1 1 "Address" "com.ex" none [] ?_ rfl, h.2.2.1⟩
  exact Relation.TransGen.single
    ((step_record (show lookup wStore 0 = some (.record "Person" "com.ex" none [⟨"address", 1, none, .absent⟩]) from rfl) 1).2
      ⟨⟨"address", 1, none, .absent⟩, List.mem_singleton.2 rfl, rfl⟩)

/-- C3 counterexample: with two distinct enum nodes named `E`, the registry
keeps a single entry, but its value is the node encountered *second* (id 2,
symbols `["Y"]`), not the first occurrence (id 1, symbols `["X"]`): the
enum assignment at src line 276 overwrites unconditionally, so "first
occurrence wins" fails for the enums map. -/
theorem claim_C3_counterexample :
    (extractNestedTypes enumDupStore 0 initState).enums = [("E", 2)] ∧
    ("E", 1) ∉ (extractNestedTypes enumDupStore 0 initState).enums ∧
    lookup enumDupStore 1 = some (.enum "E" none ["X"]) ∧
    lookup enumDupStore 2 = some (.enum "E" none ["Y"]) := by decide

/-- C3 (amended): re-declared names never raise and never produce two
registry entries (key lists stay duplicate-free, for any input); the records
map keeps the first occurrence (the second `Dup` node, id 2, is ignored),
while the enums map keeps a single entry at the first occurrence's position
whose value is overwritten by the last occurrence. -/
theorem claim_C3_amended :
    (∀ (st : Store) (root : Nat),
      (keysOf (extractNestedTypes st root initState).records).Nodup ∧
      (keysOf (extractNestedTypes st root initState).enums).Nodup) ∧
    (extractNestedTypes recordDupStore 0 initState).records = [("Dup", 1)] ∧
    (extractNestedTypes enumDupStore 0 initState).enums = [("E", 2)] := by
  refine ⟨?_, by decide, by decide⟩
  intro st root
  have hinv := extractNested_inv st root initState (ExtInv_init st)
  exact ⟨hinv.1, hinv.2.1⟩

/-! ### C10: registration of the root record -/

lemma strConcat_append (a b : List String) :
    strConcat (a ++ b) = strConcat a ++ strConcat b := by
  induction a with
  | nil => simp [strConcat, String.empty_append]
  | cons x xs ih => simp [strConcat, ih, String.append_assoc]

lemma strConcat_split {α : Type} (g : α → String) {x : α} {l : List α} (hx : x ∈ l) :
    ∃ pre post, strConcat (l.map g) = pre ++ g x ++ post := by
  obtain ⟨s, t, rfl⟩ := List.append_of_mem hx
  refine ⟨strConcat (s.map g), strConcat (t.map g), ?_⟩
  rw [List.map_append, strConcat_append, List.map_cons]
  simp [strConcat, String.append_assoc]

lemma containsChunk_prefix (x b : String) : containsChunk (x ++ b) x :=
  ⟨"", b, by rw [String.empty_append]⟩

lemma containsChunk_append_left (a : String) {doc x : String} (h : containsChunk doc x) :
    containsChunk (a ++ doc) x := by
  obtain ⟨p, q, rfl⟩ := h
  exact ⟨a ++ p, q, by simp [String.append_assoc]⟩

lemma containsChunk_append_right {doc x : String} (h : containsChunk doc x) (b : String) :
    containsChunk (doc ++ b) x := by
  obtain ⟨p, q, rfl⟩ := h
  exact ⟨p, q ++ b, by simp [String.append_assoc]⟩

/-- C10: `_extract_nested_types` never registers the root node up front — it
only walks the root's fields — so the root record's name is in the records
map (with the root node as its entry, by name uniqueness) exactly when the
root node is reachable again through one of its own fields; and whenever it
is registered, the assembled document carries a detailed `Sous-Objet`
section for the root's name in addition to the main-schema section. -/
theorem claim_C10_root_registration (st : Store) (root : Nat) (rn ns : String)
    (d : Option String) (fields : List Field)
    (hroot : lookup st root = some (.record rn ns d fields))
    (huniq : ∀ j ns' d' fs', lookup st j = some (.record rn ns' d' fs') → j = root) :
    (rn ∈ keysOf (extractNestedTypes st root initState).records ↔
        Relation.TransGen (Step st) root root) ∧
    (∀ doc g, (generateMarkdownDocumentation st root g).1 = some doc →
        rn ∈ keysOf (extractNestedTypes st root initState).records →
        ∃ pre post, doc = pre ++ ("### Sous-Objet: " ++ rn ++ "\n\n") ++ post) := by
  constructor
  · constructor
    · intro hk
      obtain ⟨e, hmem, hfst⟩ := List.mem_map.1 hk
      obtain ⟨m, j⟩ := e
      simp only at hfst
      rw [hfst] at hmem
      have hinv := extractNested_inv st root initState (ExtInv_init st)
      obtain ⟨ns', d', fs', hlj⟩ := hinv.2.2.1 rn j hmem
      have hjroot : j = root := huniq j ns' d' fs' hlj
      rw [hjroot] at hmem
      have hjproc := hinv.2.2.2.2.1 rn root hmem
      rcases extractNested_reach st root hroot initState root hjproc with h0 | ⟨f, hf, hr⟩
      · exact absurd h0 (List.not_mem_nil _)
      · exact Relation.TransGen.head' ((step_record hroot f.ty).2 ⟨f, hf, rfl⟩) hr
    · intro htg
      have hjproc := extractNested_processed st root hroot root htg
      obtain ⟨hR, _⟩ := extractNested_spec st root hroot initState
      rcases hR.2.2.2 root hjproc with h0 | hfacts
      · exact absurd h0 (List.not_mem_nil _)
      · exact hfacts.2.1 rn ns d fields hroot
  · intro doc g hdoc hk
    simp only [generateMarkdownDocumentation, hroot, Option.some.injEq] at hdoc
    obtain ⟨e, hmem, hfst⟩ := List.mem_map.1 hk
    obtain ⟨m, j⟩ := e
    simp only at hfst
    rw [hfst] at hmem
    have hne : (extractNestedTypes st root initState).records.isEmpty = false := by
      rcases hem : (extractNestedTypes st root initState).records with _ | ⟨x, xs⟩
      · rw [hem] at hmem; exact absurd hmem (List.not_mem_nil _)
      · rfl
    obtain ⟨pre0, post0, hsplit⟩ := strConcat_split (recordSectionChunk st) hmem
    show containsChunk doc ("### Sous-Objet: " ++ rn ++ "\n\n")
    rw [← hdoc, recordsSection, if_neg (by simp [hne]), hsplit,
      recordSectionChunk]
    simp only []
    apply containsChunk_append_right
    apply containsChunk_append_left
    apply containsChunk_append_left
    apply containsChunk_append_right
    apply containsChunk_append_left
    apply containsChunk_append_right
    apply containsChunk_append_right
    exact containsChunk_prefix _ _

theorem claim_C10_root_registration_witness :
    "Root" ∈ keysOf (extractNestedTypes selfStore 0 initState).records := by
  have huniq : ∀ j ns' d' fs',
      lookup selfStore j = some (.record "Root" ns' d' fs') → j = 0 := by
    intro j ns' d' fs' h
    match j with
    | 0 => rfl
    | Nat.succ k => simp [lookup, selfStore] at h
  have h := claim_C10_root_registration selfStore 0 "Root" "" none
    [⟨"next", 0, none, .absent⟩] rfl huniq
  exact h.1.mpr (Relation.TransGen.single
    ((step_record (show lookup selfStore 0 = some (.record "Root" "" none [⟨"next", 0, none, .absent⟩]) from rfl) 0).2
      ⟨⟨"next", 0, none, .absent⟩, List.mem_singleton.2 rfl, rfl⟩))

/-- C1: for the direct self-reference `Node.next : Node`, relation
extraction terminates with a bounded result — exactly one self-edge
`Node --> Node` labelled `next` — and the termination device is the depth
counter: any call of `process_type_relations` with `depth > 10` returns its
accumulator unchanged, without descending. -/
theorem claim_C1_self_reference :
    (∀ (st : Store) (depth i : Nat) (parent : Option String) (σ : RelState),
      depth > 10 → processTypeRelationsAtDepth st depth i parent σ = σ) ∧
    (generateClassRelations nodeStore 0).edges =
      [⟨"Node", "Node", "next", RelTag.record⟩] := by
  constructor
  · intro st depth i parent σ hd
    unfold processTypeRelationsAtDepth
    have h0 : 11 - depth = 0 := by omega
    rw [h0]
    rfl
  · decide

theorem claim_C1_self_reference_witness :
    processTypeRelationsAtDepth nodeStore 11 0 none ⟨[], []⟩ = ⟨[], []⟩ ∧
    (generateClassRelations nodeStore 0).edges =
      [⟨"Node", "Node", "next", RelTag.record⟩] :=
  ⟨claim_C1_self_reference.1 nodeStore 11 0 none ⟨[], []⟩ (by decide),
   claim_C1_self_reference.2⟩

/-! ### C5: idempotence of document generation -/

/-- C5: `generate_markdown_documentation` resets `self.records`,
`self.enums` and `self.processed_types` before reading anything from them,
so its output does not depend on the generator state it starts from; in
particular running it twice in a row on the same tree yields identical
documents. -/
theorem claim_C5_idempotence (st : Store) (root : Nat) (g g' : ExtractState) :
    (generateMarkdownDocumentation st root g).1 =
      (generateMarkdownDocumentation st root g').1 ∧
    (generateMarkdownDocumentation st root
        (generateMarkdownDocumentation st root g).2).1 =
      (generateMarkdownDocumentation st root g).1 :=
  ⟨rfl, rfl⟩

/-! ### C9: default-value fallback in the field renderer -/

lemma containsChunk_suffix (a x : String) : containsChunk (a ++ x) x :=
  ⟨a, "", by rw [String.append_empty]⟩

/-- C9: a field whose default-value retrieval fails is still rendered — the
whole record renders as the concatenation of every field's block, the broken
field's block is present (headed by its name), and it carries the explicit
`Non spécifiée` placeholder line instead of a propagated exception or an
omitted field. -/
theorem claim_C9_default_fallback (st : Store) (i : Nat) (rn ns : String)
    (d : Option String) (fs : List Field) (f : Field)
    (hrec : lookup st i = some (.record rn ns d fs))
    (hf : f ∈ fs) (hbroken : f.default = .broken) :
    parseRecordFields st i = strConcat (fs.map (fieldDoc st)) ∧
    containsChunk (parseRecordFields st i) ("**" ++ f.name ++ "**\n") ∧
    containsChunk (parseRecordFields st i)
      "- **Valeur par défaut**: Non spécifiée\n" := by
  have hparse : parseRecordFields st i = strConcat (fs.map (fieldDoc st)) := by
    simp [parseRecordFields, hrec]
  obtain ⟨pre0, post0, hsplit⟩ := strConcat_split (fieldDoc st) hf
  refine ⟨hparse, ?_, ?_⟩
  · rw [hparse, hsplit, fieldDoc]
    apply containsChunk_append_right
    apply containsChunk_append_left
    apply containsChunk_append_right
    apply containsChunk_append_right
    apply containsChunk_append_right
    apply containsChunk_append_right
    apply containsChunk_append_right
    exact containsChunk_prefix _ _
  · rw [hparse, hsplit, fieldDoc, hbroken]
    apply containsChunk_append_right
    apply containsChunk_append_left
    apply containsChunk_append_right
    exact containsChunk_suffix _ _

theorem claim_C9_default_fallback_witness :
    parseRecordFields brokenStore 0 =
      strConcat ([⟨"x", 1, none, .broken⟩].map (fieldDoc brokenStore)) ∧
    containsChunk (parseRecordFields brokenStore 0) ("**" ++ "x" ++ "**\n") ∧
    containsChunk (parseRecordFields brokenStore 0)
      "- **Valeur par défaut**: Non spécifiée\n" :=
  claim_C9_default_fallback brokenStore 0 "B" "" none
    [⟨"x", 1, none, .broken⟩] ⟨"x", 1, none, .broken⟩ rfl
    (List.mem_singleton.2 rfl) rfl

/-! ### Relation extraction: dedup set and emitted edges -/

lemma processTypeRelations_zero (st : Store) (i : Nat) (parent : Option String)
    (σ : RelState) : processTypeRelations st 0 i parent σ = σ := rfl

lemma processTypeRelations_succ (st : Store) (fuel i : Nat) (parent : Option String)
    (σ : RelState) :
    processTypeRelations st (fuel+1) i parent σ =
      match lookup st i with
      | some (.union members) =>
          members.foldl (fun τ j => processTypeRelations st fuel j parent τ) σ
      | some (.record name _ _ fields) =>
          fields.foldl (processFieldRel st (processTypeRelations st fuel) name) σ
      | some (.array items) =>
          processArrayRel st (processTypeRelations st fuel) items parent σ
      | _ => σ := rfl

lemma RelInv_init : RelInv ⟨[], []⟩ :=
  ⟨List.nodup_nil, by simp, by simp⟩

lemma addRelation_relinv {σ : RelState} {k : RelKey} {e : Edge}
    (hk : k = edgeKey e)
    (he : (e.tag = .array_record ∨ e.tag = .array_enum) → e.label = e.tgt)
    (h : RelInv σ) : RelInv (addRelation σ k e) := by
  unfold addRelation
  by_cases hmem : k ∈ σ.keys
  · rw [if_pos hmem]; exact h
  · rw [if_neg hmem]
    subst hk
    have hknot : edgeKey e ∉ σ.edges.map edgeKey :=
      fun hc => hmem ((h.2.1 _).2 hc)
    refine ⟨?_, ?_, ?_⟩
    · rw [List.map_append]
      rw [List.nodup_append]
      refine ⟨h.1, by simp, ?_⟩
      intro a ha hb
      simp only [List.map_cons, List.map_nil, List.mem_singleton] at hb
      exact hknot (hb ▸ ha)
    · intro k'
      rw [List.mem_cons, List.map_append, List.mem_append]
      simp only [List.map_cons, List.map_nil, List.mem_singleton]
      rw [h.2.1 k']
      tauto
    · intro e' he'
      rcases List.mem_append.1 he' with h' | h'
      · exact h.2.2 e' h'
      · rw [List.mem_singleton] at h'
        subst h'
        exact he

lemma processUnionMemberRel_relinv (st : Store) (name fname : String) :
    ∀ τ j, RelInv τ → RelInv (processUnionMemberRel st name fname τ j) := by
  intro τ j h
  unfold processUnionMemberRel
  cases hj : lookup st j with
  | none => exact h
  | some nd =>
    cases nd with
    | record rn rns rd rfs =>
        exact addRelation_relinv rfl (by intro hc; rcases hc with hc | hc <;> simp at hc) h
    | enum en ed ess =>
        exact addRelation_relinv rfl (by intro hc; rcases hc with hc | hc <;> simp at hc) h
    | array it => exact h
    | map v => exact h
    | union ms => exact h
    | primitive t => exact h

lemma processFieldRel_relinv (st : Store)
    (recurse : Nat → Option String → RelState → RelState) (name : String)
    (hrec : ∀ i p τ, RelInv τ → RelInv (recurse i p τ)) :
    ∀ τ f, RelInv τ → RelInv (processFieldRel st recurse name τ f) := by
  intro τ f h
  unfold processFieldRel
  cases hft : lookup st f.ty with
  | none => exact h
  | some nd =>
    cases nd with
    | union members =>
        exact foldl_preserve _ _ (processUnionMemberRel_relinv st name f.name) members τ h
    | record rn rns rd rfs =>
        exact hrec f.ty (some name)
          (addRelation τ (name, rn, some f.name, RelTag.record)
            ⟨name, rn, f.name, RelTag.record⟩)
          (addRelation_relinv rfl (by intro hc; rcases hc with hc | hc <;> simp at hc) h)
    | enum en ed ess =>
        exact hrec f.ty (some name)
          (addRelation τ (name, en, some f.name, RelTag.enum)
            ⟨name, en, f.name, RelTag.enum⟩)
          (addRelation_relinv rfl (by intro hc; rcases hc with hc | hc <;> simp at hc) h)
    | array it => exact hrec f.ty (some name) τ h
    | map v => exact hrec f.ty (some name) τ h
    | primitive t => exact hrec f.ty (some name) τ h

lemma processTypeRelations_relinv (st : Store) :
    ∀ fuel i parent σ, RelInv σ → RelInv (processTypeRelations st fuel i parent σ) := by
  intro fuel
  induction fuel with
  | zero => intro i parent σ h; exact h
  | succ fuel ih =>
    intro i parent σ h
    rw [processTypeRelations_succ]
    cases hnd : lookup st i with
    | none => exact h
    | some nd =>
      cases nd with
      | record n ns dd fields =>
          exact foldl_preserve _ _
            (processFieldRel_relinv st _ n (fun i' p' τ' h' => ih i' p' τ' h')) fields σ h
      | union members =>
          exact foldl_preserve _ _ (fun τ' j h' => ih j parent τ' h') members σ h
      | array items =>
          show RelInv (processArrayRel st (processTypeRelations st fuel) items parent σ)
          unfold processArrayRel
          cases hit : lookup st items with
          | none => exact h
          | some ind =>
            cases ind with
            | record rn rns rd rfs =>
                refine ih items parent _ ?_
                show RelInv (if truthyName parent = true then
                  addRelation σ (parent.getD "", rn, none, RelTag.array_record)
                    ⟨parent.getD "", rn, rn, RelTag.array_record⟩ else σ)
                by_cases hp : truthyName parent = true
                · rw [if_pos hp]
                  refine addRelation_relinv rfl ?_ h
                  intro _
                  rfl
                · rw [if_neg hp]; exact h
            | enum en ed ess =>
                refine ih items parent _ ?_
                show RelInv (if truthyName parent = true then
                  addRelation σ (parent.getD "", en, none, RelTag.array_enum)
                    ⟨parent.getD "", en, en, RelTag.array_enum⟩ else σ)
                by_cases hp : truthyName parent = true
                · rw [if_pos hp]
                  refine addRelation_relinv rfl ?_ h
                  intro _
                  rfl
                · rw [if_neg hp]; exact h
            | array it2 => exact ih items parent σ h
            | map v => exact ih items parent σ h
            | union ms => exact h
            | primitive t => exact ih items parent σ h
      | enum n d ss => exact h
      | map v => exact h
      | primitive t => exact h

lemma RelMono_refl (σ : RelState) : RelMono σ σ := ⟨fun _ h => h, fun _ h => h⟩

lemma RelMono_trans {σ1 σ2 σ3 : RelState} (h12 : RelMono σ1 σ2) (h23 : RelMono σ2 σ3) :
    RelMono σ1 σ3 :=
  ⟨fun e he => h23.1 e (h12.1 e he), fun k hk => h23.2 k (h12.2 k hk)⟩

lemma addRelation_mono (σ : RelState) (k : RelKey) (e : Edge) :
    RelMono σ (addRelation σ k e) := by
  unfold addRelation
  by_cases hmem : k ∈ σ.keys
  · rw [if_pos hmem]; exact RelMono_refl σ
  · rw [if_neg hmem]
    exact ⟨fun e' he' => List.mem_append_left _ he',
      fun k' hk' => List.mem_cons_of_mem _ hk'⟩

lemma foldl_chain {α β : Type} (R : β → β → Prop) (hrefl : ∀ b, R b b)
    (htrans : ∀ a b c, R a b → R b c → R a c) (g : β → α → β)
    (hg : ∀ τ x, R τ (g τ x)) :
    ∀ (l : List α) (τ : β), R τ (l.foldl g τ) := by
  intro l
  induction l with
  | nil => intro τ; exact hrefl τ
  | cons x xs ih =>
    intro τ
    exact htrans _ _ _ (hg τ x) (ih (g τ x))

lemma processUnionMemberRel_mono (st : Store) (name fname : String) :
    ∀ τ j, RelMono τ (processUnionMemberRel st name fname τ j) := by
  intro τ j
  unfold processUnionMemberRel
  cases hj : lookup st j with
  | none => exact RelMono_refl τ
  | some nd =>
    cases nd with
    | record rn rns rd rfs => exact addRelation_mono τ _ _
    | enum en ed ess => exact addRelation_mono τ _ _
    | array it => exact RelMono_refl τ
    | map v => exact RelMono_refl τ
    | union ms => exact RelMono_refl τ
    | primitive t => exact RelMono_refl τ

lemma processFieldRel_mono (st : Store)
    (recurse : Nat → Option String → RelState → RelState) (name : String)
    (hrec : ∀ i p τ, RelMono τ (recurse i p τ)) :
    ∀ τ f, RelMono τ (processFieldRel st recurse name τ f) := by
  intro τ f
  unfold processFieldRel
  cases hft : lookup st f.ty with
  | none => exact RelMono_refl τ
  | some nd =>
    cases nd with
    | union members =>
        exact foldl_chain RelMono RelMono_refl (fun _ _ _ h1 h2 => RelMono_trans h1 h2)
          (processUnionMemberRel st name f.name)
          (processUnionMemberRel_mono st name f.name) members τ
    | record rn rns rd rfs =>
        exact RelMono_trans (addRelation_mono τ _ _) (hrec f.ty (some name) _)
    | enum en ed ess =>
        exact RelMono_trans (addRelation_mono τ _ _) (hrec f.ty (some name) _)
    | array it => exact hrec f.ty (some name) τ
    | map v => exact hrec f.ty (some name) τ
    | primitive t => exact hrec f.ty (some name) τ

lemma processTypeRelations_mono (st : Store) :
    ∀ fuel i parent σ, RelMono σ (processTypeRelations st fuel i parent σ) := by
  intro fuel
  induction fuel with
  | zero => intro i parent σ; exact RelMono_refl σ
  | succ fuel ih =>
    intro i parent σ
    rw [processTypeRelations_succ]
    cases hnd : lookup st i with
    | none => exact RelMono_refl σ
    | some nd =>
      cases nd with
      | record n ns dd fields =>
          exact foldl_chain RelMono RelMono_refl (fun _ _ _ h1 h2 => RelMono_trans h1 h2)
            (processFieldRel st (processTypeRelations st fuel) n)
            (processFieldRel_mono st _ n (fun i' p' τ' => ih i' p' τ')) fields σ
      | union members =>
          exact foldl_chain RelMono RelMono_refl (fun _ _ _ h1 h2 => RelMono_trans h1 h2)
            (fun τ j => processTypeRelations st fuel j parent τ)
            (fun τ' j => ih j parent τ') members σ
      | array items =>
          show RelMono σ (processArrayRel st (processTypeRelations st fuel) items parent σ)
          unfold processArrayRel
          cases hit : lookup st items with
          | none => exact RelMono_refl σ
          | some ind =>
            cases ind with
            | record rn rns rd rfs =>
                refine RelMono_trans ?_ (ih items parent _)
                show RelMono σ (if truthyName parent = true then
                  addRelation σ (parent.getD "", rn, none, RelTag.array_record)
                    ⟨parent.getD "", rn, rn, RelTag.array_record⟩ else σ)
                by_cases hp : truthyName parent = true
                · rw [if_pos hp]; exact addRelation_mono σ _ _
                · rw [if_neg hp]; exact RelMono_refl σ
            | enum en ed ess =>
                refine RelMono_trans ?_ (ih items parent _)
                show RelMono σ (if truthyName parent = true then
                  addRelation σ (parent.getD "", en, none, RelTag.array_enum)
                    ⟨parent.getD "", en, en, RelTag.array_enum⟩ else σ)
                by_cases hp : truthyName parent = true
                · rw [if_pos hp]; exact addRelation_mono σ _ _
                · rw [if_neg hp]; exact RelMono_refl σ
            | array it2 => exact ih items parent σ
            | map v => exact ih items parent σ
            | union ms => exact RelMono_refl σ
            | primitive t => exact ih items parent σ
      | enum n d ss => exact RelMono_refl σ
      | map v => exact RelMono_refl σ
      | primitive t => exact RelMono_refl σ

lemma edge_eq_of_components {e1 e2 : Edge} (h1 : e1.src = e2.src) (h2 : e1.tgt = e2.tgt)
    (h3 : e1.label = e2.label) (h4 : e1.tag = e2.tag) : e1 = e2 := by
  cases e1
  cases e2
  simp only at h1 h2 h3 h4
  subst h1
  subst h2
  subst h3
  subst h4
  rfl

/-- C4: one extraction run never emits two edges agreeing on all of
(source, target, field-label, kind); and the suppression set persists across
the whole run — at the end it holds exactly the dedup tuples of every edge
emitted since the start, ruling out any per-record reset. -/
theorem claim_C4_no_duplicate_edges (st : Store) (root : Nat) :
    List.Pairwise (fun e1 e2 => ¬(e1.src = e2.src ∧ e1.tgt = e2.tgt ∧
        e1.label = e2.label ∧ e1.tag = e2.tag))
      (generateClassRelations st root).edges ∧
    (∀ k, k ∈ (generateClassRelations st root).keys ↔
        k ∈ ((generateClassRelations st root).edges.map edgeKey)) := by
  have h := processTypeRelations_relinv st 11 root none ⟨[], []⟩ RelInv_init
  refine ⟨?_, h.2.1⟩
  have hpw := (List.pairwise_map).1 h.1
  exact hpw.imp (fun hne hcomp => hne (congrArg edgeKey
    (edge_eq_of_components hcomp.1 hcomp.2.1 hcomp.2.2.1 hcomp.2.2.2)))

/-- After an emission at a 4-tuple (direct or union-member) site, an edge
with exactly the emitted components is in the accumulator — whether the key
was fresh (the edge is appended) or already present (the invariant ties the
key to an earlier identical edge). -/
lemma addRelation_mem_quad {σ : RelState} (hinv : RelInv σ) (s t l : String)
    (tag : RelTag) :
    ∃ e ∈ (addRelation σ (s, t, some l, tag) ⟨s, t, l, tag⟩).edges,
      e.src = s ∧ e.tgt = t ∧ e.label = l ∧ e.tag = tag := by
  unfold addRelation
  by_cases hk : ((s, t, some l, tag) : RelKey) ∈ σ.keys
  · rw [if_pos hk]
    obtain ⟨e, hemem, hekey⟩ := List.mem_map.1 ((hinv.2.1 _).1 hk)
    refine ⟨e, hemem, ?_⟩
    rcases e with ⟨es, et, el, etag⟩
    cases etag <;> simp [edgeKey] at hekey <;> simp_all
  · rw [if_neg hk]
    exact ⟨⟨s, t, l, tag⟩, List.mem_append_right _ (List.mem_singleton.2 rfl),
      rfl, rfl, rfl, rfl⟩

/-- After an emission at a 3-tuple (array) site, an edge with the emitted
components — labelled with the element type's name — is in the
accumulator. -/
lemma addRelation_mem_array {σ : RelState} (hinv : RelInv σ) (s t : String)
    {tag : RelTag} (htag : tag = RelTag.array_record ∨ tag = RelTag.array_enum) :
    ∃ e ∈ (addRelation σ (s, t, none, tag) ⟨s, t, t, tag⟩).edges,
      e.src = s ∧ e.tgt = t ∧ e.label = t ∧ e.tag = tag := by
  unfold addRelation
  by_cases hk : ((s, t, none, tag) : RelKey) ∈ σ.keys
  · rw [if_pos hk]
    obtain ⟨e, hemem, hekey⟩ := List.mem_map.1 ((hinv.2.1 _).1 hk)
    refine ⟨e, hemem, ?_⟩
    have hlab := hinv.2.2 e hemem
    rcases e with ⟨es, et, el, etag⟩
    rcases htag with rfl | rfl <;> cases etag <;> simp [edgeKey] at hekey <;>
      simp_all
  · rw [if_neg hk]
    exact ⟨⟨s, t, t, tag⟩, List.mem_append_right _ (List.mem_singleton.2 rfl),
      rfl, rfl, rfl, rfl⟩

/-- C8 counterexample: `Inner` is reachable only through a map value and the
claim says shapes without a branch are "still recursed into" so that such
types "still contribute their edges"; the run emits no edge at all — in
particular no `Inner --> Other` edge — because a map node matches no branch
of `process_type_relations` and its value type is never visited. -/
theorem claim_C8_counterexample :
    (generateClassRelations mapStore 0).edges = [] ∧
    lookup mapStore 1 = some (.map 2) ∧
    lookup mapStore 2 = some (.record "Inner" "" none [⟨"g", 3, none, .absent⟩]) ∧
    lookup mapStore 3 = some (.record "Other" "" none []) := by decide

/-- C8 (amended): during relation extraction a node of map, primitive or
enum shape produces no edge at its level and is *not* recursed into — the
call returns its accumulator unchanged — so named types reachable only
through such a shape contribute no edges (concretely, the map store above
yields an empty relation set). -/
theorem claim_C8_amended (st : Store) (fuel i : Nat) (parent : Option String)
    (σ : RelState) :
    ((∃ v, lookup st i = some (.map v)) ∨ (∃ t, lookup st i = some (.primitive t)) ∨
        (∃ n d ss, lookup st i = some (.enum n d ss)) →
      processTypeRelations st fuel i parent σ = σ) ∧
    (generateClassRelations mapStore 0).edges = [] := by
  constructor
  · intro h
    cases fuel with
    | zero => rfl
    | succ fuel =>
      rw [processTypeRelations_succ]
      rcases h with ⟨v, hl⟩ | ⟨t, hl⟩ | ⟨n, d, ss, hl⟩ <;> rw [hl]
  · decide

theorem claim_C8_amended_witness :
    processTypeRelations mapStore 5 1 (some "R") ⟨[], []⟩ = ⟨[], []⟩ ∧
    (generateClassRelations mapStore 0).edges = [] := by
  have h := claim_C8_amended mapStore 5 1 (some "R") ⟨[], []⟩
  exact ⟨h.1 (Or.inl ⟨2, rfl⟩), h.2⟩

/-- C7 counterexample: the claim says extraction recurses into each union
alternative so that relations nested below it are still discovered; here the
run emits only the inline `R --> Inner` edge and never the `Inner --> Other`
edge, because the union branch of the field loop (src lines 102–117) does
not recurse into the alternatives. -/
theorem claim_C7_counterexample :
    (generateClassRelations unionNestStore 0).edges =
      [⟨"R", "Inner", "f", RelTag.record_list⟩] ∧
    (∀ e ∈ (generateClassRelations unionNestStore 0).edges, e.src ≠ "Inner") ∧
    lookup unionNestStore 1 = some (.union [2]) ∧
    lookup unionNestStore 2 = some (.record "Inner" "" none [⟨"g", 3, none, .absent⟩]) ∧
    lookup unionNestStore 3 = some (.record "Other" "" none []) := by decide

/-- C7 (amended): a record or enum alternative of a union-typed field emits
an inline edge labelled with the field's name, rendered identically to the
direct-field case; but the extractor does not recurse into union
alternatives, so named types and relations nested below an alternative are
not discovered (concretely, the nested store yields only the inline edge). -/
theorem claim_C7_amended (st : Store) (fuel i : Nat) (parent : Option String)
    (σ : RelState) (name ns : String) (d : Option String) (fields : List Field)
    (f : Field) (members : List Nat) (j : Nat)
    (hrec : lookup st i = some (.record name ns d fields))
    (hf : f ∈ fields)
    (hty : lookup st f.ty = some (.union members))
    (hj : j ∈ members)
    (hinv : RelInv σ) :
    (∀ rn rns rd rfs, lookup st j = some (.record rn rns rd rfs) →
      (∃ e ∈ (processTypeRelations st (fuel + 1) i parent σ).edges,
        e.src = name ∧ e.tgt = rn ∧ e.label = f.name ∧ e.tag = RelTag.record_list) ∧
      renderRelationLine ⟨name, rn, f.name, RelTag.record_list⟩ =
        renderRelationLine ⟨name, rn, f.name, RelTag.record⟩) ∧
    (∀ en ed ess, lookup st j = some (.enum en ed ess) →
      (∃ e ∈ (processTypeRelations st (fuel + 1) i parent σ).edges,
        e.src = name ∧ e.tgt = en ∧ e.label = f.name ∧ e.tag = RelTag.enum_list) ∧
      renderRelationLine ⟨name, en, f.name, RelTag.enum_list⟩ =
        renderRelationLine ⟨name, en, f.name, RelTag.enum⟩) ∧
    (generateClassRelations unionNestStore 0).edges =
      [⟨"R", "Inner", "f", RelTag.record_list⟩] := by
  obtain ⟨l1, l2, rfl⟩ := List.append_of_mem hf
  obtain ⟨m1, m2, rfl⟩ := List.append_of_mem hj
  have hrun : processTypeRelations st (fuel + 1) i parent σ =
      (l1 ++ f :: l2).foldl
        (processFieldRel st (processTypeRelations st fuel) name) σ := by
    rw [processTypeRelations_succ, hrec]
  have hmonoP : ∀ i' p' τ', RelMono τ' (processTypeRelations st fuel i' p' τ') :=
    fun i' p' τ' => processTypeRelations_mono st fuel i' p' τ'
  have hinvP : ∀ i' p' τ', RelInv τ' → RelInv (processTypeRelations st fuel i' p' τ') :=
    fun i' p' τ' h' => processTypeRelations_relinv st fuel i' p' τ' h'
  have hinva : RelInv (l1.foldl
      (processFieldRel st (processTypeRelations st fuel) name) σ) :=
    foldl_preserve _ _ (processFieldRel_relinv st _ name hinvP) l1 σ hinv
  have hgf : processFieldRel st (processTypeRelations st fuel) name
      (l1.foldl (processFieldRel st (processTypeRelations st fuel) name) σ) f =
      (m1 ++ j :: m2).foldl (processUnionMemberRel st name f.name)
        (l1.foldl (processFieldRel st (processTypeRelations st fuel) name) σ) := by
    unfold processFieldRel
    rw [hty]
  have hinvb : RelInv (m1.foldl (processUnionMemberRel st name f.name)
      (l1.foldl (processFieldRel st (processTypeRelations st fuel) name) σ)) :=
    foldl_preserve _ _ (processUnionMemberRel_relinv st name f.name) m1 _ hinva
  have hfinal : processTypeRelations st (fuel + 1) i parent σ =
      l2.foldl (processFieldRel st (processTypeRelations st fuel) name)
        (m2.foldl (processUnionMemberRel st name f.name)
          (processUnionMemberRel st name f.name
            (m1.foldl (processUnionMemberRel st name f.name)
              (l1.foldl (processFieldRel st (processTypeRelations st fuel) name) σ)) j)) := by
    rw [hrun, List.foldl_append, List.foldl_cons, hgf, List.foldl_append, List.foldl_cons]
  have hmonoAfter : RelMono
      (processUnionMemberRel st name f.name
        (m1.foldl (processUnionMemberRel st name f.name)
          (l1.foldl (processFieldRel st (processTypeRelations st fuel) name) σ)) j)
      (processTypeRelations st (fuel + 1) i parent σ) := by
    rw [hfinal]
    exact RelMono_trans
      (foldl_chain RelMono RelMono_refl (fun _ _ _ h1 h2 => RelMono_trans h1 h2)
        (processUnionMemberRel st name f.name)
        (processUnionMemberRel_mono st name f.name) m2 _)
      (foldl_chain RelMono RelMono_refl (fun _ _ _ h1 h2 => RelMono_trans h1 h2)
        (processFieldRel st (processTypeRelations st fuel) name)
        (processFieldRel_mono st _ name hmonoP) l2 _)
  refine ⟨?_, ?_, by decide⟩
  · intro rn rns rd rfs hlj
    have hhj : processUnionMemberRel st name f.name
        (m1.foldl (processUnionMemberRel st name f.name)
          (l1.foldl (processFieldRel st (processTypeRelations st fuel) name) σ)) j =
        addRelation
          (m1.foldl (processUnionMemberRel st name f.name)
            (l1.foldl (processFieldRel st (processTypeRelations st fuel) name) σ))
          (name, rn, some f.name, RelTag.record_list)
          ⟨name, rn, f.name, RelTag.record_list⟩ := by
      unfold processUnionMemberRel
      rw [hlj]
    obtain ⟨e, hemem, hcomps⟩ := addRelation_mem_quad hinvb name rn f.name
      RelTag.record_list
    exact ⟨⟨e, hmonoAfter.1 e (hhj ▸ hemem), hcomps⟩, rfl⟩
  · intro en ed ess hlj
    have hhj : processUnionMemberRel st name f.name
        (m1.foldl (processUnionMemberRel st name f.name)
          (l1.foldl (processFieldRel st (processTypeRelations st fuel) name) σ)) j =
        addRelation
          (m1.foldl (processUnionMemberRel st name f.name)
            (l1.foldl (processFieldRel st (processTypeRelations st fuel) name) σ))
          (name, en, some f.name, RelTag.enum_list)
          ⟨name, en, f.name, RelTag.enum_list⟩ := by
      unfold processUnionMemberRel
      rw [hlj]
    obtain ⟨e, hemem, hcomps⟩ := addRelation_mem_quad hinvb name en f.name
      RelTag.enum_list
    exact ⟨⟨e, hmonoAfter.1 e (hhj ▸ hemem), hcomps⟩, rfl⟩

theorem claim_C7_amended_witness :
    (∃ e ∈ (processTypeRelations unionNestStore (0 + 1) 0 none ⟨[], []⟩).edges,
      e.src = "R" ∧ e.tgt = "Inner" ∧ e.label = "f" ∧ e.tag = RelTag.record_list) ∧
    renderRelationLine ⟨"R", "Inner", "f", RelTag.record_list⟩ =
      renderRelationLine ⟨"R", "Inner", "f", RelTag.record⟩ := by
  have h := claim_C7_amended unionNestStore 0 0 none ⟨[], []⟩ "R" "" none
    [⟨"f", 1, none, .absent⟩] ⟨"f", 1, none, .absent⟩ [2] 2 rfl
    (List.mem_singleton.2 rfl) rfl (List.mem_singleton.2 rfl) RelInv_init
  exact h.1 "Inner" "" none [⟨"g", 3, none, .absent⟩] rfl

/-- C6 counterexample: the claim says the element-name labelling "also holds
for array members nested inside a union"; here the array sits inside the
union field `u` and the run emits *no* edge at all (a union member that is
not directly a record or enum is skipped without recursion), so there is no
composition-list edge for `Q` of any label. -/
theorem claim_C6_counterexample :
    (generateClassRelations unionArrayStore 0).edges = [] ∧
    lookup unionArrayStore 1 = some (.union [2]) ∧
    lookup unionArrayStore 2 = some (.array 3) ∧
    lookup unionArrayStore 3 = some (.record "Q" "" none []) := by decide

/-- C6 (amended): for a record field whose type is directly an array of a
named record (resp. enum), extraction emits a composition-list (resp.
dependency-list) edge whose label is the *element type's* name, not the
field's own name — provided the enclosing record's name is non-empty, since
the emission is guarded by Python truthiness of `parent_name`; but an array
member nested inside a union emits no edge at all (the union-array store
yields an empty relation set). -/
theorem claim_C6_amended (st : Store) (fuel i : Nat) (parent : Option String)
    (σ : RelState) (name ns : String) (d : Option String) (fields : List Field)
    (f : Field) (items : Nat)
    (hrec : lookup st i = some (.record name ns d fields))
    (hf : f ∈ fields)
    (hty : lookup st f.ty = some (.array items))
    (hname : name ≠ "")
    (hinv : RelInv σ) :
    (∀ rn rns rd rfs, lookup st items = some (.record rn rns rd rfs) →
      ∃ e ∈ (processTypeRelations st (fuel + 2) i parent σ).edges,
        e.src = name ∧ e.tgt = rn ∧ e.label = rn ∧
        specKind e.tag = SpecKind.compositionList) ∧
    (∀ en ed ess, lookup st items = some (.enum en ed ess) →
      ∃ e ∈ (processTypeRelations st (fuel + 2) i parent σ).edges,
        e.src = name ∧ e.tgt = en ∧ e.label = en ∧
        specKind e.tag = SpecKind.dependencyList) ∧
    (generateClassRelations unionArrayStore 0).edges = [] := by
  obtain ⟨l1, l2, rfl⟩ := List.append_of_mem hf
  have htr : truthyName (some name) = true := by simp [truthyName, hname]
  have hrun : processTypeRelations st (fuel + 2) i parent σ =
      (l1 ++ f :: l2).foldl
        (processFieldRel st (processTypeRelations st (fuel + 1)) name) σ := by
    rw [processTypeRelations_succ, hrec]
  have hmonoP : ∀ i' p' τ', RelMono τ' (processTypeRelations st (fuel + 1) i' p' τ') :=
    fun i' p' τ' => processTypeRelations_mono st (fuel + 1) i' p' τ'
  have hinvP : ∀ i' p' τ',
      RelInv τ' → RelInv (processTypeRelations st (fuel + 1) i' p' τ') :=
    fun i' p' τ' h' => processTypeRelations_relinv st (fuel + 1) i' p' τ' h'
  have hinva : RelInv (l1.foldl
      (processFieldRel st (processTypeRelations st (fuel + 1)) name) σ) :=
    foldl_preserve _ _ (processFieldRel_relinv st _ name hinvP) l1 σ hinv
  have hgf : processFieldRel st (processTypeRelations st (fuel + 1)) name
      (l1.foldl (processFieldRel st (processTypeRelations st (fuel + 1)) name) σ) f =
      processTypeRelations st (fuel + 1) f.ty (some name)
        (l1.foldl (processFieldRel st (processTypeRelations st (fuel + 1)) name) σ) := by
    unfold processFieldRel
    rw [hty]
  have hstep : processTypeRelations st (fuel + 1) f.ty (some name)
      (l1.foldl (processFieldRel st (processTypeRelations st (fuel + 1)) name) σ) =
      processArrayRel st (processTypeRelations st fuel) items (some name)
        (l1.foldl (processFieldRel st (processTypeRelations st (fuel + 1)) name) σ) := by
    rw [processTypeRelations_succ, hty]
  refine ⟨?_, ?_, by decide⟩
  · intro rn rns rd rfs hit
    have harr : processArrayRel st (processTypeRelations st fuel) items (some name)
        (l1.foldl (processFieldRel st (processTypeRelations st (fuel + 1)) name) σ) =
        processTypeRelations st fuel items (some name)
          (addRelation
            (l1.foldl (processFieldRel st (processTypeRelations st (fuel + 1)) name) σ)
            (name, rn, none, RelTag.array_record)
            ⟨name, rn, rn, RelTag.array_record⟩) := by
      unfold processArrayRel
      rw [hit]
      show processTypeRelations st fuel items (some name)
        (if truthyName (some name) = true then
          addRelation
            (l1.foldl (processFieldRel st (processTypeRelations st (fuel + 1)) name) σ)
            (name, rn, none, RelTag.array_record)
            ⟨name, rn, rn, RelTag.array_record⟩
        else
          l1.foldl (processFieldRel st (processTypeRelations st (fuel + 1)) name) σ) = _
      rw [if_pos htr]
    have hfinal : processTypeRelations st (fuel + 2) i parent σ =
        l2.foldl (processFieldRel st (processTypeRelations st (fuel + 1)) name)
          (processTypeRelations st fuel items (some name)
            (addRelation
              (l1.foldl (processFieldRel st (processTypeRelations st (fuel + 1)) name) σ)
              (name, rn, none, RelTag.array_record)
              ⟨name, rn, rn, RelTag.array_record⟩)) := by
      rw [hrun, List.foldl_append, List.foldl_cons, hgf, hstep, harr]
    obtain ⟨e, hemem, hcomps⟩ := addRelation_mem_array hinva name rn
      (Or.inl rfl)
    refine ⟨e, ?_, hcomps.1, hcomps.2.1, hcomps.2.2.1, by rw [hcomps.2.2.2]; rfl⟩
    rw [hfinal]
    exact (foldl_chain RelMono RelMono_refl (fun _ _ _ h1 h2 => RelMono_trans h1 h2)
        (processFieldRel st (processTypeRelations st (fuel + 1)) name)
        (processFieldRel_mono st _ name hmonoP) l2 _).1 e
      ((processTypeRelations_mono st fuel items (some name) _).1 e hemem)
  · intro en ed ess hit
    have harr : processArrayRel st (processTypeRelations st fuel) items (some name)
        (l1.foldl (processFieldRel st (processTypeRelations st (fuel + 1)) name) σ) =
        processTypeRelations st fuel items (some name)
          (addRelation
            (l1.foldl (processFieldRel st (processTypeRelations st (fuel + 1)) name) σ)
            (name, en, none, RelTag.array_enum)
            ⟨name, en, en, RelTag.array_enum⟩) := by
      unfold processArrayRel
      rw [hit]
      show processTypeRelations st fuel items (some name)
        (if truthyName (some name) = true then
          addRelation
            (l1.foldl (processFieldRel st (processTypeRelations st (fuel + 1)) name) σ)
            (name, en, none, RelTag.array_enum)
            ⟨name, en, en, RelTag.array_enum⟩
        else
          l1.foldl (processFieldRel st (processTypeRelations st (fuel + 1)) name) σ) = _
      rw [if_pos htr]
    have hfinal : processTypeRelations st (fuel + 2) i parent σ =
        l2.foldl (processFieldRel st (processTypeRelations st (fuel + 1)) name)
          (processTypeRelations st fuel items (some name)
            (addRelation
              (l1.foldl (processFieldRel st (processTypeRelations st (fuel + 1)) name) σ)
              (name, en, none, RelTag.array_enum)
              ⟨name, en, en, RelTag.array_enum⟩)) := by
      rw [hrun, List.foldl_append, List.foldl_cons, hgf, hstep, harr]
    obtain ⟨e, hemem, hcomps⟩ := addRelation_mem_array hinva name en
      (Or.inr rfl)
    refine ⟨e, ?_, hcomps.1, hcomps.2.1, hcomps.2.2.1, by rw [hcomps.2.2.2]; rfl⟩
    rw [hfinal]
    exact (foldl_chain RelMono RelMono_refl (fun _ _ _ h1 h2 => RelMono_trans h1 h2)
        (processFieldRel st (processTypeRelations st (fuel + 1)) name)
        (processFieldRel_mono st _ name hmonoP) l2 _).1 e
      ((processTypeRelations_mono st fuel items (some name) _).1 e hemem)

theorem claim_C6_amended_witness :
    ∃ e ∈ (processTypeRelations arrStore (0 + 2) 0 none ⟨[], []⟩).edges,
      e.src = "P" ∧ e.tgt = "Address" ∧ e.label = "Address" ∧
      specKind e.tag = SpecKind.compositionList := by
  have h := claim_C6_amended arrStore 0 0 none ⟨[], []⟩ "P" "" none
    [⟨"addresses", 1, none, .absent⟩] ⟨"addresses", 1, none, .absent⟩ 2 rfl
    (List.mem_singleton.2 rfl) rfl (by decide) RelInv_init
  exact h.1 "Address" "" none [] rfl

end AvroDoc
